import Mathlib

/-! # ITCH 5.0 schema-driven decoder (`itch_parser.c`)

A shallow embedding of the field decoder, the type-name mapping, the schema
loader, the framing loop and `main` of `itch_parser.c`, followed by the
properties proved about them.

Conventions of the embedding.

* A byte is a `Fin 256`.  Text is a `List Char`; a byte `b` seen as a `char` is
  `Char.ofNat b`, a C string is the list of its characters before the NUL.
* Unsigned machine integers are natural numbers, reduced `% 2 ^ w` where the C
  expression is converted to a `w`-bit type.
* A pointer into a buffer is modelled by the list of bytes from the pointer to
  the end of the buffer.  An access outside of the buffer has no defined
  behaviour in C; the embedding returns `none` there.
* The host byte order is a parameter: `memcpy` into an integer object and the
  `unsigned char *` view of an integer object go through `load` and `store`.
* `unsigned long` is 64 bits wide, as `%lu` with a `uint64_t` argument assumes.
* The XML document is the tree that `libxml2` builds; `xmlReadFile` returning
  `NULL` is the document `none`.  `atoi` is `(int) strtol(s, NULL, 10)`.
* `double` values are exact dyadic rationals; division and the conversion from
  integers round to nearest, ties to even (IEEE 754 binary64), and `printf`
  rounds the exact binary value to the requested number of decimals.
-/

namespace ItchParser

/-! ## Constants -/

def MAX_FIELDS : Nat := 20
def MAX_MESSAGE_TYPES : Nat := 32
def MAX_FIELD_NAME : Nat := 64
def MAX_TYPE_NAME : Nat := 32

/-! ## Bytes and object representations -/

abbrev Byte := Fin 256

/-- Byte order of the machine that runs the program. -/
inductive ByteOrder where
  | little
  | big
  deriving DecidableEq, Repr

/-- Little-endian bytes of `v`, `n` of them, least significant first. -/
def le_bytes : Nat → Nat → List Byte
  | 0, _ => []
  | n + 1, v => ⟨v % 256, Nat.mod_lt v (by decide)⟩ :: le_bytes n (v / 256)

/-- Value of a list of bytes read least significant first. -/
def le_value : List Byte → Nat
  | [] => 0
  | b :: bs => b.val + 256 * le_value bs

/-- Object representation of the `n`-byte unsigned integer `v` on `host`:
the bytes that `(unsigned char *)&v` walks through. -/
def store (host : ByteOrder) (n v : Nat) : List Byte :=
  match host with
  | .little => le_bytes n v
  | .big => (le_bytes n v).reverse

/-- Value of the unsigned integer object whose bytes are `bytes` on `host`:
what `memcpy(&v, bytes, sizeof v)` leaves in `v`. -/
def load (host : ByteOrder) (bytes : List Byte) : Nat :=
  match host with
  | .little => le_value bytes
  | .big => le_value bytes.reverse

/-- Big-endian (network order) encoding of `v` on `n` bytes: the wire format. -/
def be_encode (n v : Nat) : List Byte := (le_bytes n v).reverse

/-- Byte `bytes[i]` of an object representation. -/
def byte_at (bytes : List Byte) (i : Nat) : Nat := (bytes.getD i 0).val

/-- Big-endian reading of a byte list: `sum of bytes[i] * 256 ^ (n - 1 - i)`. -/
def be_sum (bytes : List Byte) : Nat :=
  ((List.range bytes.length).map fun i => byte_at bytes i * 256 ^ (bytes.length - 1 - i)).sum

/-! ## Manual big-endian to host conversions (lines 28-52) -/

def manual_be16toh (host : ByteOrder) (big_endian : Nat) : Nat :=
  let bytes := store host 2 big_endian
  ((byte_at bytes 0 <<< 8) |||
    byte_at bytes 1) % 2 ^ 16

def manual_be32toh (host : ByteOrder) (big_endian : Nat) : Nat :=
  let bytes := store host 4 big_endian
  ((byte_at bytes 0 <<< 24) % 2 ^ 32 |||
   (byte_at bytes 1 <<< 16) % 2 ^ 32 |||
   (byte_at bytes 2 <<< 8) % 2 ^ 32 |||
    byte_at bytes 3) % 2 ^ 32

def manual_be64toh (host : ByteOrder) (big_endian : Nat) : Nat :=
  let bytes := store host 8 big_endian
  ((byte_at bytes 0 <<< 56) % 2 ^ 64 |||
   (byte_at bytes 1 <<< 48) % 2 ^ 64 |||
   (byte_at bytes 2 <<< 40) % 2 ^ 64 |||
   (byte_at bytes 3 <<< 32) % 2 ^ 64 |||
   (byte_at bytes 4 <<< 24) % 2 ^ 64 |||
   (byte_at bytes 5 <<< 16) % 2 ^ 64 |||
   (byte_at bytes 6 <<< 8) % 2 ^ 64 |||
    byte_at bytes 7) % 2 ^ 64

/-! ## Field types and descriptors (lines 54-85) -/

inductive FieldType where
  | TYPE_CHAR
  | TYPE_U8
  | TYPE_U16
  | TYPE_U32
  | TYPE_U48
  | TYPE_U64
  | TYPE_PRICE4
  | TYPE_PRICE8
  | TYPE_CHAR_ARRAY
  deriving DecidableEq, Repr

open FieldType

/-- The C `Field` record; `offset` and `length` are `int`s filled by `atoi`. -/
structure Field where
  name : List Char
  offset : Int
  length : Int
  type : FieldType
  deriving DecidableEq, Repr

/-- The C `MessageSpec` record; `fields` holds the first `num_fields` entries
of the array. -/
structure MessageSpec where
  id : Byte
  length : Int
  fields : List Field
  deriving DecidableEq, Repr

def MessageSpec.num_fields (spec : MessageSpec) : Nat := spec.fields.length

/-! ## `strncmp` and `get_field_type` (lines 88-99) -/

/-- C `strncmp` on NUL-terminated strings given without their terminator: the
difference of the first pair of differing characters among the first `n`,
the terminator counting as character 0. -/
def strncmp : List Char → List Char → Nat → Int
  | _, _, 0 => 0
  | [], [], _ + 1 => 0
  | [], c :: _, _ + 1 => 0 - (c.toNat : Int)
  | c :: _, [], _ + 1 => (c.toNat : Int)
  | a :: s, b :: t, n + 1 =>
    if a = b then strncmp s t n else (a.toNat : Int) - (b.toNat : Int)

def get_field_type (type_str : List Char) : FieldType :=
  if strncmp type_str "char_t".toList 6 = 0 then TYPE_CHAR
  else if strncmp type_str "u8_t".toList 4 = 0 then TYPE_U8
  else if strncmp type_str "u16_t".toList 5 = 0 then TYPE_U16
  else if strncmp type_str "u32_t".toList 5 = 0 then TYPE_U32
  else if strncmp type_str "u48_t".toList 5 = 0 then TYPE_U48
  else if strncmp type_str "u64_t".toList 5 = 0 then TYPE_U64
  else if strncmp type_str "price_4_t".toList 9 = 0 then TYPE_PRICE4
  else if strncmp type_str "price_8_t".toList 9 = 0 then TYPE_PRICE8
  else if strncmp type_str "char_".toList 5 = 0 then TYPE_CHAR_ARRAY
  else TYPE_CHAR

/-! ## binary64 arithmetic used by the price fields -/

/-- Non-negative finite binary64 value `num / 2 ^ scale`. -/
structure Double where
  num : Nat
  scale : Nat
  deriving DecidableEq, Repr

/-- Integer nearest to `a / b`, ties to the even one. -/
def round_half_even (a b : Nat) : Nat :=
  let q := a / b
  let r := a % b
  if 2 * r < b then q
  else if b < 2 * r then q + 1
  else if q % 2 = 0 then q
  else q + 1

/-- Least `k` (at most the fuel) with `2 ^ 52 ≤ a * 2 ^ k / b`: the number of
fraction bits of the binary64 nearest to `a / b < 2 ^ 53`.  The fuel 1074 is the
quantum exponent of the subnormal numbers. -/
def quantum_up : Nat → Nat → Nat → Nat
  | 0, _, _ => 0
  | fuel + 1, a, b => if b * 2 ^ 52 ≤ a then 0 else quantum_up fuel (2 * a) b + 1

/-- Least `s` (at most the fuel) with `a / (b * 2 ^ s) < 2 ^ 53`: the binary
exponent of the unit in the last place of `a / b ≥ 2 ^ 53`. -/
def quantum_down : Nat → Nat → Nat → Nat
  | 0, _, _ => 0
  | fuel + 1, a, b => if a < b * 2 ^ 53 then 0 else quantum_down fuel a (2 * b) + 1

/-- The binary64 nearest to the rational `a / b` (`b > 0`), ties to even.
Values of this program stay below `2 ^ 64`, far from overflow. -/
def Double.round (a b : Nat) : Double :=
  if a < b * 2 ^ 53 then
    let k := quantum_up 1074 a b
    ⟨round_half_even (a * 2 ^ k) b, k⟩
  else
    let s := quantum_down 971 a b
    ⟨round_half_even a (b * 2 ^ s) * 2 ^ s, 0⟩

/-- Conversion of an unsigned integer to `double`. -/
def Double.ofNat (u : Nat) : Double := Double.round u 1

/-- IEEE division `x / y` of two doubles, `y` non-zero. -/
def Double.div (x y : Double) : Double :=
  Double.round (x.num * 2 ^ y.scale) (y.num * 2 ^ x.scale)

/-- The `prec` decimal digits of `v < 10 ^ prec`, leading zeros included. -/
def frac_digits (prec v : Nat) : List Char :=
  (List.range prec).map fun i => Nat.digitChar (v / 10 ^ (prec - 1 - i) % 10)

/-- Text of `printf("%.<prec>f", x)`: the exact value of `x` rounded to `prec`
decimals, ties to even. -/
def printf_f (prec : Nat) (x : Double) : List Char :=
  let r := round_half_even (x.num * 10 ^ prec) (2 ^ x.scale)
  Nat.toDigits 10 (r / 10 ^ prec) ++
    (if prec = 0 then [] else '.' :: frac_digits prec (r % 10 ^ prec))

/-! ## `snprintf` and `parse_binary_value` (lines 175-228) -/

/-- The C string held by a `char` buffer with contents `bytes`. -/
def c_str (bytes : List Char) : List Char := bytes.takeWhile (fun c => c ≠ Char.ofNat 0)

/-- The C string that `snprintf(output, output_size, ...)` leaves in `output`
when the formatted text is `text`: at most `output_size - 1` characters are
stored before the terminator.  With `output_size = 0` nothing is stored and
there is no result text. -/
def snprintf (output_size : Nat) (text : List Char) : Option (List Char) :=
  if output_size = 0 then none
  else some (c_str (text.take (output_size - 1)))

/-- Size of the local `char temp[64]`. -/
def TEMP_SIZE : Nat := 64

/-- The function `parse_binary_value(data, field, output, output_size)`: the
text left in `output`.  `data` is the list of bytes from the pointer to the end
of the message buffer; `none` when a read or write falls outside its buffer. -/
def parse_binary_value (host : ByteOrder) (data : List Byte) (field : Field)
    (output_size : Nat) : Option (List Char) :=
  match field.type with
  | TYPE_CHAR =>
    match data with
    | [] => none
    | b :: _ => snprintf output_size [Char.ofNat b.val]
  | TYPE_U8 =>
    match data with
    | [] => none
    | b :: _ => snprintf output_size (Nat.toDigits 10 b.val)
  | TYPE_U16 =>
    if data.length < 2 then none
    else
      let u16 := load host (data.take 2)
      let u16 := manual_be16toh host u16
      snprintf output_size (Nat.toDigits 10 u16)
  | TYPE_U32 =>
    if data.length < 4 then none
    else
      let u32 := load host (data.take 4)
      let u32 := manual_be32toh host u32
      snprintf output_size (Nat.toDigits 10 u32)
  | TYPE_U48 =>
    if data.length < 6 then none
    else
      let temp : List Byte := [0, 0] ++ data.take 6
      let u64 := load host (temp.take 8)
      let u64 := manual_be64toh host u64
      snprintf output_size (Nat.toDigits 10 u64)
  | TYPE_U64 =>
    if data.length < 8 then none
    else
      let u64 := load host (data.take 8)
      let u64 := manual_be64toh host u64
      snprintf output_size (Nat.toDigits 10 u64)
  | TYPE_PRICE4 =>
    if data.length < 4 then none
    else
      let u32 := load host (data.take 4)
      let u32 := manual_be32toh host u32
      snprintf output_size (printf_f 4 (Double.div (Double.ofNat u32) ⟨10000, 0⟩))
  | TYPE_PRICE8 =>
    if data.length < 8 then none
    else
      let u64 := load host (data.take 8)
      let u64 := manual_be64toh host u64
      snprintf output_size (printf_f 8 (Double.div (Double.ofNat u64) ⟨100000000, 0⟩))
  | TYPE_CHAR_ARRAY =>
    if field.length < 0 then none
    else
      let n := field.length.toNat
      if data.length < n then none
      else if TEMP_SIZE ≤ n then none
      else
        let temp := (data.take n).map (fun b => Char.ofNat b.val) ++ [Char.ofNat 0]
        snprintf output_size (c_str temp)

/-! ## `find_message_spec` (lines 231-238) -/

/-- First entry of the catalog, in array order, whose `id` is `id`. -/
def find_message_spec (message_specs : List MessageSpec) (id : Byte) : Option MessageSpec :=
  message_specs.find? fun spec => spec.id = id

/-! ## The binary file -/

/-- A `FILE *` opened for reading: the number of bytes already consumed and the
bytes not yet read. -/
structure FileStream where
  position : Nat
  unread : List Byte
  deriving DecidableEq, Repr

/-- The call `fread(ptr, size, nmemb, file)`: the bytes stored through `ptr`, the
returned number of complete items, and the stream afterwards.  A short read
consumes what is left of the file. -/
def fread (size nmemb : Nat) (file : FileStream) : List Byte × Nat × FileStream :=
  let got := file.unread.take (size * nmemb)
  (got, if size = 0 then 0 else got.length / size,
    ⟨file.position + got.length, file.unread.drop (size * nmemb)⟩)

/-! ## The processing loop of `main` (lines 262-298) -/

/-- What `main` prints for one recognized message: the `Message %d:` number,
the `Type: %c` character and one `name: value` line per field. -/
structure DecodedMessage where
  number : Nat
  type : Char
  fields : List (List Char × List Char)
  deriving DecidableEq, Repr

/-- Size of `char value_buffer[256]`. -/
def VALUE_BUFFER_SIZE : Nat := 256

/-- The pointer `message_data + offset`: the bytes from there to the end of the
buffer; `none` when the pointer leaves the buffer. -/
def field_data (message_data : List Byte) (offset : Int) : Option (List Byte) :=
  if 0 ≤ offset ∧ offset ≤ (message_data.length : Int) then
    some (message_data.drop offset.toNat)
  else none

/-- The `for` loop over the fields of the matched spec (lines 288-292): the
`name: value` lines in the order of the array. -/
def decode_fields (host : ByteOrder) (message_data : List Byte) :
    List Field → Option (List (List Char × List Char))
  | [] => some []
  | field :: fields =>
    match field_data message_data field.offset with
    | none => none
    | some data =>
      match parse_binary_value host data field VALUE_BUFFER_SIZE with
      | none => none
      | some value =>
        match decode_fields host message_data fields with
        | none => none
        | some lines => some ((field.name, value) :: lines)

/-- Lines 279-295: look the type byte of a frame up and, when it is known, print
the message and count it.  Returns the counter and the print-out afterwards;
`none` when the frame is empty (`message_data[0]` lies outside of the buffer) or
a field is read outside of the frame. -/
def dispatch (host : ByteOrder) (message_specs : List MessageSpec) (message_data : List Byte)
    (messages_processed : Nat) (printed : List DecodedMessage) :
    Option (Nat × List DecodedMessage) :=
  match message_data with
  | [] => none
  | message_type :: _ =>
    match find_message_spec message_specs message_type with
    | some spec =>
      match decode_fields host message_data spec.fields with
      | none => none
      | some lines =>
        some (messages_processed + 1,
          printed ++ [⟨messages_processed + 1, Char.ofNat message_type.val, lines⟩])
    | none => some (messages_processed, printed)

/-- State of the loop: the file, `messages_processed` and the messages printed
so far. -/
structure LoopState where
  file : FileStream
  messages_processed : Nat
  printed : List DecodedMessage
  deriving DecidableEq, Repr

/-- Result of one run of the loop body. -/
inductive Step where
  | proceed (s : LoopState)
  | stop (s : LoopState)
  | undefined
  deriving DecidableEq, Repr

/-- The body of the `while` loop (lines 267-297). -/
def loop_body (host : ByteOrder) (message_specs : List MessageSpec) (s : LoopState) : Step :=
  match fread 2 1 s.file with
  | (header, items, file) =>
    if items ≠ 1 then Step.stop { s with file := file }
    else
      let message_length := manual_be16toh host (load host header)
      match fread 1 message_length file with
      | (message_data, count, file) =>
        if count ≠ message_length then Step.stop { s with file := file }
        else
          match dispatch host message_specs message_data s.messages_processed s.printed with
          | none => Step.undefined
          | some (messages_processed, printed) =>
            Step.proceed ⟨file, messages_processed, printed⟩

/-- How the loop ended. -/
inductive Outcome where
  | finished (s : LoopState)
  | undefined
  | out_of_fuel
  deriving DecidableEq, Repr

/-- The loop `while (messages_processed < num_messages)`, at most `fuel`
iterations. -/
def main_loop (host : ByteOrder) (message_specs : List MessageSpec) (num_messages : Int) :
    Nat → LoopState → Outcome
  | 0, _ => Outcome.out_of_fuel
  | fuel + 1, s =>
    if (s.messages_processed : Int) < num_messages then
      match loop_body host message_specs s with
      | Step.proceed s' => main_loop host message_specs num_messages fuel s'
      | Step.stop s' => Outcome.finished s'
      | Step.undefined => Outcome.undefined
    else Outcome.finished s

/-- State at the start of the loop: nothing read, nothing processed. -/
def initial_state (bytes : List Byte) : LoopState := ⟨⟨0, bytes⟩, 0, []⟩

/-- The loop run on a file with contents `bytes`.  Every iteration that
continues consumes at least two bytes, so `bytes.length + 1` iterations are
enough. -/
def run (host : ByteOrder) (message_specs : List MessageSpec) (bytes : List Byte)
    (num_messages : Int) : Outcome :=
  main_loop host message_specs num_messages (bytes.length + 1) (initial_state bytes)

/-- State after `k` complete iterations of the loop, when there are that many. -/
def iterate (host : ByteOrder) (message_specs : List MessageSpec) (num_messages : Int) :
    Nat → LoopState → Option LoopState
  | 0, s => some s
  | k + 1, s =>
    if (s.messages_processed : Int) < num_messages then
      match loop_body host message_specs s with
      | Step.proceed s' => iterate host message_specs num_messages k s'
      | _ => none
    else none

/-! ## The wire format, as the specification words it -/

/-- One record of the capture: `[u16 big-endian length L][L bytes payload]`. -/
def encode_frame (payload : List Byte) : List Byte := be_encode 2 payload.length ++ payload

/-- A concatenation of records. -/
def encode_stream : List (List Byte) → List Byte
  | [] => []
  | payload :: payloads => encode_frame payload ++ encode_stream payloads

/-- A stream that stops inside a record: fewer than two header bytes, or a
header announcing more payload bytes than follow. -/
def Truncated (tail : List Byte) : Prop :=
  match tail with
  | h0 :: h1 :: rest => rest.length < h0.val * 256 + h1.val
  | _ => True

instance (tail : List Byte) : Decidable (Truncated tail) := by
  unfold Truncated
  split <;> infer_instance

/-- The complete records at the start of a stream, read with at most `fuel`
steps. -/
def complete_frames_aux : Nat → List Byte → List (List Byte)
  | 0, _ => []
  | fuel + 1, h0 :: h1 :: rest =>
    if rest.length < h0.val * 256 + h1.val then []
    else rest.take (h0.val * 256 + h1.val) ::
      complete_frames_aux fuel (rest.drop (h0.val * 256 + h1.val))
  | _ + 1, _ => []

/-- The payloads of the complete records of a stream, in file order. -/
def complete_frames (bytes : List Byte) : List (List Byte) :=
  complete_frames_aux bytes.length bytes

/-- A payload whose type-id byte has a spec in the catalog. -/
def recognized (message_specs : List MessageSpec) (payload : List Byte) : Bool :=
  match payload with
  | [] => false
  | message_type :: _ => (find_message_spec message_specs message_type).isSome

/-- The message printed for a recognized payload when it is the `number`-th. -/
def decode_message (host : ByteOrder) (message_specs : List MessageSpec) (number : Nat)
    (payload : List Byte) : Option DecodedMessage :=
  match payload with
  | [] => none
  | message_type :: _ =>
    match find_message_spec message_specs message_type with
    | none => none
    | some spec =>
      (decode_fields host payload spec.fields).map fun lines =>
        ⟨number, Char.ofNat message_type.val, lines⟩

/-- The records that a run with limit `n` reads: all of them up to and including
the `n`-th recognized one. -/
def frames_read (message_specs : List MessageSpec) : Nat → List (List Byte) → List (List Byte)
  | 0, _ => []
  | _ + 1, [] => []
  | n + 1, payload :: payloads =>
    payload :: frames_read message_specs
      (if recognized message_specs payload then n else n + 1) payloads

/-- Bytes taken by a list of records, two header bytes and the payload each. -/
def frames_size (payloads : List (List Byte)) : Nat :=
  (payloads.map fun payload => 2 + payload.length).sum

/-- What a finished run shows to its caller: the counter and the messages
printed; `none` when the run has no defined behaviour. -/
def Outcome.result : Outcome → Option (Nat × List DecodedMessage)
  | Outcome.finished s => some (s.messages_processed, s.printed)
  | Outcome.undefined => none
  | Outcome.out_of_fuel => none

/-- The loop of `main` told over an already framed stream: the records
`payloads` followed by a truncated `tail`, from file position `position`. -/
def frames_loop (host : ByteOrder) (message_specs : List MessageSpec) (num_messages : Int)
    (tail : List Byte) :
    List (List Byte) → Nat → Nat → List DecodedMessage → Outcome
  | [], position, messages_processed, printed =>
    if (messages_processed : Int) < num_messages then
      Outcome.finished ⟨⟨position + tail.length, []⟩, messages_processed, printed⟩
    else Outcome.finished ⟨⟨position, tail⟩, messages_processed, printed⟩
  | payload :: payloads, position, messages_processed, printed =>
    if (messages_processed : Int) < num_messages then
      match dispatch host message_specs payload messages_processed printed with
      | none => Outcome.undefined
      | some (messages_processed', printed') =>
        frames_loop host message_specs num_messages tail payloads
          (position + 2 + payload.length) messages_processed' printed'
    else
      Outcome.finished
        ⟨⟨position, encode_stream (payload :: payloads) ++ tail⟩, messages_processed, printed⟩

/-! ## C library strings: `strcmp`, `atoi`, `strncpy` -/

/-- C `strcmp` on NUL-terminated strings given without their terminator. -/
def strcmp : List Char → List Char → Int
  | [], [] => 0
  | [], c :: _ => 0 - (c.toNat : Int)
  | c :: _, [] => (c.toNat : Int)
  | a :: s, b :: t => if a = b then strcmp s t else (a.toNat : Int) - (b.toNat : Int)

/-- C `isspace` in the "C" locale: space, `\t`, `\n`, `\v`, `\f`, `\r`. -/
def isspace (c : Char) : Bool := c.toNat = 32 || (9 ≤ c.toNat && c.toNat ≤ 13)

/-- C `isdigit`. -/
def isdigit (c : Char) : Bool := 48 ≤ c.toNat && c.toNat ≤ 57

/-- Value of a run of decimal digits, most significant first. -/
def decimal_value (digits : List Char) : Nat :=
  digits.foldl (fun acc c => acc * 10 + (c.toNat - 48)) 0

def LONG_MAX : Int := 2 ^ 63 - 1
def LONG_MIN : Int := -(2 ^ 63)

/-- C `strtol(nptr, NULL, 10)` with a 64-bit `long`: leading white space, an
optional sign, then the longest run of digits; the value saturates at
`LONG_MIN` and `LONG_MAX`. -/
def strtol (nptr : List Char) : Int :=
  let s := nptr.dropWhile isspace
  let negative := s.head? = some '-'
  let s := if s.head? = some '-' ∨ s.head? = some '+' then s.tail else s
  let magnitude : Int := (decimal_value (s.takeWhile isdigit) : Nat)
  let value := if negative then -magnitude else magnitude
  max LONG_MIN (min LONG_MAX value)

/-- Conversion of a `long` to `int`: reduction modulo `2 ^ 32` into
`[-2 ^ 31, 2 ^ 31)`. -/
def long_to_int (v : Int) : Int := (v + 2 ^ 31) % 2 ^ 32 - 2 ^ 31

/-- C `atoi`, as the C library computes it: `(int) strtol(nptr, NULL, 10)`. -/
def atoi (nptr : List Char) : Int := long_to_int (strtol nptr)

/-- The call `strncpy(dest, src, n)` into a zero-filled `dest` of more than `n`
bytes: the C string left in `dest`.  The slots of the static `message_specs`
array start zero-filled and each is written once. -/
def strncpy (src : List Char) (n : Nat) : List Char := src.take n

/-- A `char` stored from the `xmlChar` `c`: its byte value. -/
def char_byte (c : Char) : Byte := ⟨c.toNat % 256, Nat.mod_lt _ (by decide)⟩

/-! ## The XML document tree, as `libxml2` hands it over -/

/-- The node types that occur among the children of an element (CDATA
sections, the only nodes without a name, are not represented). -/
inductive XmlElementType where
  | XML_ELEMENT_NODE
  | XML_TEXT_NODE
  | XML_PI_NODE
  | XML_COMMENT_NODE
  deriving DecidableEq, Repr

open XmlElementType

/-- An `xmlNode`: type, name, attributes and children in document order. -/
inductive XmlNode where
  | mk (type : XmlElementType) (name : List Char)
      (properties : List (List Char × List Char)) (children : List XmlNode)

def XmlNode.type : XmlNode → XmlElementType
  | XmlNode.mk type _ _ _ => type

def XmlNode.name : XmlNode → List Char
  | XmlNode.mk _ name _ _ => name

def XmlNode.properties : XmlNode → List (List Char × List Char)
  | XmlNode.mk _ _ properties _ => properties

def XmlNode.children : XmlNode → List XmlNode
  | XmlNode.mk _ _ _ children => children

/-- An `xmlDoc`: its root element. -/
structure XmlDoc where
  root : XmlNode

/-- The call `xmlGetProp(node, name)`: the value of the attribute, `none` for
`NULL` when the element has no such attribute. -/
def xmlGetProp (node : XmlNode) (name : List Char) : Option (List Char) :=
  if node.type = XML_ELEMENT_NODE then
    (node.properties.find? fun attr => attr.1 = name).map fun attr => attr.2
  else none

/-! ## `parse_xml_spec` (lines 102-172) -/

/-- The `while (field != NULL)` loop (lines 137-160) over the children of a
`Struct` element: `fields` holds the `spec->num_fields` entries written so far.
Returns `none` when an entry is written behind the end of `spec->fields`. -/
def parse_fields (fields : List Field) : List XmlNode → Option (List Field)
  | [] => some fields
  | field :: next =>
    if field.type = XML_ELEMENT_NODE ∧ strcmp field.name "Field".toList = 0 then
      match xmlGetProp field "name".toList, xmlGetProp field "offset".toList,
        xmlGetProp field "len".toList, xmlGetProp field "type".toList with
      | some name, some offset, some length, some type =>
        if MAX_FIELDS ≤ fields.length then none
        else
          parse_fields
            (fields ++ [⟨strncpy name (MAX_FIELD_NAME - 1), atoi offset, atoi length,
              get_field_type type⟩]) next
      | _, _, _, _ => parse_fields fields next
    else parse_fields fields next

/-- The `while (struct_node != NULL)` loop (lines 125-168): `message_specs` holds
the `num_message_specs` entries written so far.  Returns `none` when an entry is
written behind the end of `message_specs` or of a `fields` array. -/
def parse_structs (message_specs : List MessageSpec) : List XmlNode → Option (List MessageSpec)
  | [] => some message_specs
  | struct_node :: next =>
    if struct_node.type = XML_ELEMENT_NODE ∧ strcmp struct_node.name "Struct".toList = 0 then
      match xmlGetProp struct_node "id".toList, xmlGetProp struct_node "len".toList with
      | some id, some len =>
        if MAX_MESSAGE_TYPES ≤ message_specs.length then none
        else
          match parse_fields [] struct_node.children with
          | none => none
          | some fields =>
            parse_structs
              (message_specs ++ [⟨char_byte (id.headD (Char.ofNat 0)), atoi len, fields⟩]) next
      | _, _ => parse_structs message_specs next
    else parse_structs message_specs next

/-- State of the globals after `parse_xml_spec` and what it wrote to `stderr`;
the function itself returns `void`. -/
structure Loaded where
  message_specs : List MessageSpec
  stderr : List String
  deriving DecidableEq, Repr

/-- The function `parse_xml_spec(xml_path)`.  `doc` is what `xmlReadFile` returns
(`none` for `NULL`), `message_specs` the catalog held by the globals before the
call.  Returns `none` when a write leaves the static arrays. -/
def parse_xml_spec (doc : Option XmlDoc) (message_specs : List MessageSpec) : Option Loaded :=
  match doc with
  | none => some ⟨message_specs, ["Failed to parse XML file\n"]⟩
  | some doc =>
    match doc.root.children.find? fun structs => strcmp structs.name "Structs".toList = 0 with
    | none => some ⟨message_specs, ["No Structs section found in XML\n"]⟩
    | some structs =>
      (parse_structs message_specs structs.children).map fun message_specs =>
        ⟨message_specs, []⟩

/-! ## `main` (lines 240-312) -/

/-- What `main` finds outside of the program: the parsed schema file, the
contents of the capture file when it can be opened, and the time measured
around the loop. -/
structure Environment where
  xml_document : Option XmlDoc
  binary_file : Option (List Byte)
  duration_ns : Nat

/-- The three lines of the summary printed after the loop. -/
structure Summary where
  messages_processed : Nat
  total_time_ms : List Char
  average_time_us : List Char
  deriving DecidableEq, Repr

/-- The summary of lines 300-308; `none` when the integer division
`duration_ns / messages_processed` has a zero divisor. -/
def summary (duration_ns messages_processed : Nat) : Option Summary :=
  if messages_processed = 0 then none
  else
    some ⟨messages_processed,
      printf_f 3 (Double.div (Double.ofNat duration_ns) ⟨1000000, 0⟩),
      printf_f 3 (Double.div (Double.ofNat (duration_ns / messages_processed)) ⟨1000, 0⟩)⟩

/-- How `main` ends. -/
inductive Exit where
  | usage
  | open_failed (stderr : List String)
  | success (stderr : List String) (final : LoopState) (summary : Summary)
  | undefined
  | out_of_fuel
  deriving DecidableEq, Repr

/-- The function `main(argc, argv)`, the globals being those of a fresh process
(an empty catalog). -/
def main (host : ByteOrder) (argv : List (List Char)) (env : Environment) : Exit :=
  if argv.length ≠ 2 then Exit.usage
  else
    let num_messages := atoi (argv.getD 1 [])
    match parse_xml_spec env.xml_document [] with
    | none => Exit.undefined
    | some loaded =>
      match env.binary_file with
      | none => Exit.open_failed (loaded.stderr ++ ["Failed to open binary file\n"])
      | some bytes =>
        match run host loaded.message_specs bytes num_messages with
        | Outcome.finished final =>
          match summary env.duration_ns final.messages_processed with
          | none => Exit.undefined
          | some lines => Exit.success loaded.stderr final lines
        | Outcome.undefined => Exit.undefined
        | Outcome.out_of_fuel => Exit.out_of_fuel

/-! ## The schema, as the specification words it -/

/-- An element named `name`, names being compared as C strings. -/
def is_element (node : XmlNode) (name : List Char) : Bool :=
  node.type = XML_ELEMENT_NODE && strcmp node.name name = 0

/-- The descriptor declared by a `Field` element that carries all of `name`,
`offset`, `len` and `type`; `none` for any other node. -/
def field_of_node (node : XmlNode) : Option Field :=
  if is_element node "Field".toList then
    match xmlGetProp node "name".toList, xmlGetProp node "offset".toList,
      xmlGetProp node "len".toList, xmlGetProp node "type".toList with
    | some name, some offset, some length, some type =>
      some ⟨name.take 63, atoi offset, atoi length, get_field_type type⟩
    | _, _, _, _ => none
  else none

/-- The message spec declared by a `Struct` element that carries both `id` and
`len`: its complete fields in document order; `none` for any other node. -/
def spec_of_node (node : XmlNode) : Option MessageSpec :=
  if is_element node "Struct".toList then
    match xmlGetProp node "id".toList, xmlGetProp node "len".toList with
    | some id, some len =>
      some ⟨char_byte (id.headD (Char.ofNat 0)), atoi len, node.children.filterMap field_of_node⟩
    | _, _ => none
  else none

/-- An element with the given name, attributes and children. -/
def element (name : String) (properties : List (String × String)) (children : List XmlNode) :
    XmlNode :=
  XmlNode.mk XML_ELEMENT_NODE name.toList
    (properties.map fun attr => (attr.1.toList, attr.2.toList)) children

/-- A text node, as the parser leaves between elements. -/
def text_node : XmlNode := XmlNode.mk XML_TEXT_NODE "text".toList [] []

/-- The Field Decoder applied to the payload bytes from the offset of `field`
on, with the name of the field. -/
def decode_field (host : ByteOrder) (payload : List Byte) (field : Field) :
    Option (List Char × List Char) :=
  match field_data payload field.offset with
  | none => none
  | some data =>
    (parse_binary_value host data field VALUE_BUFFER_SIZE).map fun value => (field.name, value)

/-- The schema of the System Event scenario: `S`, 12 bytes, five fields, with
the white-space text nodes that an indented document has. -/
def system_event_schema : XmlDoc :=
  ⟨element "Root" [] [text_node, element "Structs" [] [text_node,
    element "Struct" [("id", "S"), ("len", "12")] [text_node,
      element "Field" [("name", "type"), ("offset", "0"), ("len", "1"), ("type", "char_t")] [],
      text_node,
      element "Field"
        [("name", "stock_locate"), ("offset", "1"), ("len", "2"), ("type", "u16_t")] [],
      text_node,
      element "Field" [("name", "tracking"), ("offset", "3"), ("len", "2"), ("type", "u16_t")] [],
      text_node,
      element "Field" [("name", "timestamp"), ("offset", "5"), ("len", "6"), ("type", "u48_t")] [],
      text_node,
      element "Field"
        [("name", "event_code"), ("offset", "11"), ("len", "1"), ("type", "char_t")] [],
      text_node],
    text_node], text_node]⟩

/-- The payload of the System Event scenario. -/
def system_event_payload : List Byte := [0x53, 0, 0, 0, 0, 0, 0, 0, 0, 0, 0, 0x4F]

/-- A schema with one `Struct` element. -/
def one_struct_schema : XmlDoc :=
  ⟨element "Root" [] [element "Structs" []
    [element "Struct" [("id", "A"), ("len", "3")]
      [element "Field" [("name", "a"), ("offset", "1"), ("len", "2"), ("type", "u16_t")] []]]]⟩

/-- A schema with two `Struct` elements of the same type-id `A`: the first
declares a 16-bit field `first`, the second a character field `second`. -/
def duplicate_schema : XmlDoc :=
  ⟨element "Root" [] [element "Structs" []
    [element "Struct" [("id", "A"), ("len", "3")]
      [element "Field" [("name", "first"), ("offset", "1"), ("len", "2"), ("type", "u16_t")]
        []],
     element "Struct" [("id", "A"), ("len", "2")]
      [element "Field" [("name", "second"), ("offset", "1"), ("len", "1"), ("type", "char_t")]
        []]]]⟩

/-- A schema whose `Structs` element is empty. -/
def empty_schema : XmlDoc := ⟨element "Root" [] [element "Structs" [] []]⟩

/-- A document without a `Structs` element. -/
def no_structs_document : XmlDoc := ⟨element "Root" [] [element "Other" [] []]⟩

/-! # Theorems -/

/-! ## Object representations -/

theorem le_bytes_le_value (bs : List Byte) : le_bytes bs.length (le_value bs) = bs := by
  induction bs with
  | nil => rfl
  | cons b bs ih =>
    have hb := b.isLt
    simp only [List.length_cons, le_bytes, le_value]
    have h1 : (b.val + 256 * le_value bs) % 256 = b.val := by omega
    have h2 : (b.val + 256 * le_value bs) / 256 = le_value bs := by omega
    rw [h2, ih]
    congr 1
    exact Fin.ext h1

theorem le_bytes_length (n v : Nat) : (le_bytes n v).length = n := by
  induction n generalizing v with
  | zero => rfl
  | succ n ih => simp [le_bytes, ih]

theorem store_load (host : ByteOrder) (bs : List Byte) :
    store host bs.length (load host bs) = bs := by
  cases host with
  | little => exact le_bytes_le_value bs
  | big =>
    have h := le_bytes_le_value bs.reverse
    rw [List.length_reverse] at h
    simp only [store, load, h, List.reverse_reverse]

theorem shl_or (a i b : Nat) (h : b < 2 ^ i) : a <<< i ||| b = a * 2 ^ i + b := by
  rw [Nat.shiftLeft_eq, Nat.mul_comm, Nat.mul_add_lt_is_or h]

theorem manual_be16toh_load (host : ByteOrder) (b0 b1 : Byte) :
    manual_be16toh host (load host [b0, b1]) = b0.val * 256 + b1.val := by
  have h := store_load host [b0, b1]
  simp only [List.length_cons, List.length_nil] at h
  have h0 := b0.isLt
  have h1 := b1.isLt
  simp only [manual_be16toh, h, byte_at, List.getD_cons_zero, List.getD_cons_succ]
  rw [shl_or _ 8 _ (by omega)]
  omega

theorem manual_be32toh_load (host : ByteOrder) (b0 b1 b2 b3 : Byte) :
    manual_be32toh host (load host [b0, b1, b2, b3]) =
      b0.val * 2 ^ 24 + b1.val * 2 ^ 16 + b2.val * 2 ^ 8 + b3.val := by
  have h := store_load host [b0, b1, b2, b3]
  simp only [List.length_cons, List.length_nil] at h
  have h0 := b0.isLt
  have h1 := b1.isLt
  have h2 := b2.isLt
  have h3 := b3.isLt
  simp only [manual_be32toh, h, byte_at, List.getD_cons_zero, List.getD_cons_succ]
  simp only [Nat.shiftLeft_eq]
  rw [Nat.mod_eq_of_lt (by omega : b0.val * 2 ^ 24 < 2 ^ 32),
    Nat.mod_eq_of_lt (by omega : b1.val * 2 ^ 16 < 2 ^ 32),
    Nat.mod_eq_of_lt (by omega : b2.val * 2 ^ 8 < 2 ^ 32)]
  simp only [← Nat.shiftLeft_eq, Nat.lor_assoc]
  rw [shl_or _ 8 _ (by omega), shl_or _ 16 _ (by omega), shl_or _ 24 _ (by omega)]
  omega

theorem manual_be64toh_load (host : ByteOrder) (b0 b1 b2 b3 b4 b5 b6 b7 : Byte) :
    manual_be64toh host (load host [b0, b1, b2, b3, b4, b5, b6, b7]) =
      b0.val * 2 ^ 56 + b1.val * 2 ^ 48 + b2.val * 2 ^ 40 + b3.val * 2 ^ 32 +
        b4.val * 2 ^ 24 + b5.val * 2 ^ 16 + b6.val * 2 ^ 8 + b7.val := by
  have h := store_load host [b0, b1, b2, b3, b4, b5, b6, b7]
  simp only [List.length_cons, List.length_nil] at h
  have h0 := b0.isLt
  have h1 := b1.isLt
  have h2 := b2.isLt
  have h3 := b3.isLt
  have h4 := b4.isLt
  have h5 := b5.isLt
  have h6 := b6.isLt
  have h7 := b7.isLt
  simp only [manual_be64toh, h, byte_at, List.getD_cons_zero, List.getD_cons_succ]
  simp only [Nat.shiftLeft_eq]
  rw [Nat.mod_eq_of_lt (by omega : b0.val * 2 ^ 56 < 2 ^ 64),
    Nat.mod_eq_of_lt (by omega : b1.val * 2 ^ 48 < 2 ^ 64),
    Nat.mod_eq_of_lt (by omega : b2.val * 2 ^ 40 < 2 ^ 64),
    Nat.mod_eq_of_lt (by omega : b3.val * 2 ^ 32 < 2 ^ 64),
    Nat.mod_eq_of_lt (by omega : b4.val * 2 ^ 24 < 2 ^ 64),
    Nat.mod_eq_of_lt (by omega : b5.val * 2 ^ 16 < 2 ^ 64),
    Nat.mod_eq_of_lt (by omega : b6.val * 2 ^ 8 < 2 ^ 64)]
  simp only [← Nat.shiftLeft_eq, Nat.lor_assoc]
  rw [shl_or _ 8 _ (by omega), shl_or _ 16 _ (by omega), shl_or _ 24 _ (by omega),
    shl_or _ 32 _ (by omega), shl_or _ 40 _ (by omega), shl_or _ 48 _ (by omega),
    shl_or _ 56 _ (by omega)]
  omega

/-! ## Decimal text and `snprintf` -/

theorem digitChar_add_16 (n : Nat) : Nat.digitChar (n + 16) = '*' := by
  simp [Nat.digitChar]

theorem digitChar_ne_nul : ∀ n : Nat, Nat.digitChar n ≠ Char.ofNat 0
  | 0 | 1 | 2 | 3 | 4 | 5 | 6 | 7 | 8 | 9 | 10 | 11 | 12 | 13 | 14 | 15 => by decide
  | n + 16 => by rw [digitChar_add_16]; decide

theorem toDigitsCore_ne_nul (b : Nat) (fuel n : Nat) (acc : List Char)
    (hacc : ∀ c ∈ acc, c ≠ Char.ofNat 0) :
    ∀ c ∈ Nat.toDigitsCore b fuel n acc, c ≠ Char.ofNat 0 := by
  induction fuel generalizing n acc with
  | zero => simpa [Nat.toDigitsCore] using hacc
  | succ fuel ih =>
    have hcons : ∀ c ∈ Nat.digitChar (n % b) :: acc, c ≠ Char.ofNat 0 := by
      intro c hc
      rcases List.mem_cons.mp hc with h | h
      · rw [h]; exact digitChar_ne_nul _
      · exact hacc c h
    simp only [Nat.toDigitsCore]
    split
    · exact hcons
    · exact ih _ _ hcons

theorem toDigits_ne_nul (v : Nat) : ∀ c ∈ Nat.toDigits 10 v, c ≠ Char.ofNat 0 :=
  toDigitsCore_ne_nul 10 _ _ [] (by simp)

theorem c_str_of_no_nul (text : List Char) (h : ∀ c ∈ text, c ≠ Char.ofNat 0) :
    c_str text = text := by
  unfold c_str
  rw [List.takeWhile_eq_self_iff]
  intro c hc
  simpa using h c hc

theorem snprintf_fits (output_size : Nat) (text : List Char)
    (hnul : ∀ c ∈ text, c ≠ Char.ofNat 0) (hlen : text.length < output_size) :
    snprintf output_size text = some text := by
  unfold snprintf
  rw [if_neg (by omega), List.take_of_length_le (by omega), c_str_of_no_nul text hnul]

theorem snprintf_digits (output_size v : Nat) (h : (Nat.toDigits 10 v).length < output_size) :
    snprintf output_size (Nat.toDigits 10 v) = some (Nat.toDigits 10 v) :=
  snprintf_fits _ _ (toDigits_ne_nul v) h

/-! ## Integer kinds -/

theorem parse_u16 (host : ByteOrder) (b0 b1 : Byte) (rest : List Byte) (f : Field)
    (hf : f.type = TYPE_U16) (output_size : Nat) :
    parse_binary_value host (b0 :: b1 :: rest) f output_size =
      snprintf output_size (Nat.toDigits 10 (b0.val * 256 + b1.val)) := by
  simp [parse_binary_value, hf, manual_be16toh_load]

theorem parse_u32 (host : ByteOrder) (b0 b1 b2 b3 : Byte) (rest : List Byte) (f : Field)
    (hf : f.type = TYPE_U32) (output_size : Nat) :
    parse_binary_value host (b0 :: b1 :: b2 :: b3 :: rest) f output_size =
      snprintf output_size (Nat.toDigits 10
        (b0.val * 2 ^ 24 + b1.val * 2 ^ 16 + b2.val * 2 ^ 8 + b3.val)) := by
  simp [parse_binary_value, hf, manual_be32toh_load]

theorem parse_u64 (host : ByteOrder) (b0 b1 b2 b3 b4 b5 b6 b7 : Byte) (rest : List Byte)
    (f : Field) (hf : f.type = TYPE_U64) (output_size : Nat) :
    parse_binary_value host (b0 :: b1 :: b2 :: b3 :: b4 :: b5 :: b6 :: b7 :: rest) f
        output_size =
      snprintf output_size (Nat.toDigits 10
        (b0.val * 2 ^ 56 + b1.val * 2 ^ 48 + b2.val * 2 ^ 40 + b3.val * 2 ^ 32 +
          b4.val * 2 ^ 24 + b5.val * 2 ^ 16 + b6.val * 2 ^ 8 + b7.val)) := by
  simp [parse_binary_value, hf, manual_be64toh_load]

theorem parse_u48 (host : ByteOrder) (b0 b1 b2 b3 b4 b5 : Byte) (rest : List Byte)
    (f : Field) (hf : f.type = TYPE_U48) (output_size : Nat) :
    parse_binary_value host (b0 :: b1 :: b2 :: b3 :: b4 :: b5 :: rest) f output_size =
      snprintf output_size (Nat.toDigits 10
        (b0.val * 2 ^ 40 + b1.val * 2 ^ 32 + b2.val * 2 ^ 24 + b3.val * 2 ^ 16 +
          b4.val * 2 ^ 8 + b5.val)) := by
  simp [parse_binary_value, hf, manual_be64toh_load]

theorem be_encode_2 (v : Nat) : be_encode 2 v =
    [⟨v / 256 % 256, Nat.mod_lt _ (by decide)⟩, ⟨v % 256, Nat.mod_lt _ (by decide)⟩] := by
  simp [be_encode, le_bytes]

theorem parse_be_u16 (host : ByteOrder) (v : Nat) (hv : v < 2 ^ 16) (rest : List Byte)
    (f : Field) (hf : f.type = TYPE_U16) (output_size : Nat) :
    parse_binary_value host (be_encode 2 v ++ rest) f output_size =
      snprintf output_size (Nat.toDigits 10 v) := by
  simp only [be_encode, le_bytes, List.reverse_cons, List.reverse_nil, List.nil_append,
    List.cons_append]
  rw [parse_u16 host _ _ _ f hf]
  congr 2
  simp only
  omega

theorem parse_be_u32 (host : ByteOrder) (v : Nat) (hv : v < 2 ^ 32) (rest : List Byte)
    (f : Field) (hf : f.type = TYPE_U32) (output_size : Nat) :
    parse_binary_value host (be_encode 4 v ++ rest) f output_size =
      snprintf output_size (Nat.toDigits 10 v) := by
  simp only [be_encode, le_bytes, List.reverse_cons, List.reverse_nil, List.nil_append,
    List.cons_append]
  rw [parse_u32 host _ _ _ _ _ f hf]
  congr 2
  simp only
  omega

theorem parse_be_u64 (host : ByteOrder) (v : Nat) (hv : v < 2 ^ 64) (rest : List Byte)
    (f : Field) (hf : f.type = TYPE_U64) (output_size : Nat) :
    parse_binary_value host (be_encode 8 v ++ rest) f output_size =
      snprintf output_size (Nat.toDigits 10 v) := by
  simp only [be_encode, le_bytes, List.reverse_cons, List.reverse_nil, List.nil_append,
    List.cons_append]
  rw [parse_u64 host _ _ _ _ _ _ _ _ _ f hf]
  congr 2
  simp only
  omega

theorem parse_be_u48 (host : ByteOrder) (v : Nat) (hv : v < 2 ^ 48) (rest : List Byte)
    (f : Field) (hf : f.type = TYPE_U48) (output_size : Nat) :
    parse_binary_value host (be_encode 6 v ++ rest) f output_size =
      snprintf output_size (Nat.toDigits 10 v) := by
  simp only [be_encode, le_bytes, List.reverse_cons, List.reverse_nil, List.nil_append,
    List.cons_append]
  rw [parse_u48 host _ _ _ _ _ _ _ f hf]
  congr 2
  simp only
  omega

/-- C1: for the kinds U16, U32 and U64 (width 16, 32, 64) and every value `v`
below `2 ^ w`, `parse_binary_value` applied to the big-endian encoding of `v`
(followed by any further payload bytes) produces the decimal text of `v`, on a
little-endian and on a big-endian host alike, as soon as the text fits the
output buffer; and `memcpy` followed by `manual_be16toh`, `manual_be32toh`,
`manual_be64toh` computes the sum of `bytes[i] * 256 ^ (n - 1 - i)`. -/
theorem parse_binary_value_be_roundtrip (host : ByteOrder) (v : Nat) (rest : List Byte)
    (name : List Char) (offset length : Int) (output_size : Nat)
    (hsize : (Nat.toDigits 10 v).length < output_size) :
    (v < 2 ^ 16 →
      parse_binary_value host (be_encode 2 v ++ rest) ⟨name, offset, length, TYPE_U16⟩
        output_size = some (Nat.toDigits 10 v)) ∧
    (v < 2 ^ 32 →
      parse_binary_value host (be_encode 4 v ++ rest) ⟨name, offset, length, TYPE_U32⟩
        output_size = some (Nat.toDigits 10 v)) ∧
    (v < 2 ^ 64 →
      parse_binary_value host (be_encode 8 v ++ rest) ⟨name, offset, length, TYPE_U64⟩
        output_size = some (Nat.toDigits 10 v)) ∧
    (∀ bytes : List Byte, bytes.length = 2 →
      manual_be16toh host (load host bytes) = be_sum bytes) ∧
    (∀ bytes : List Byte, bytes.length = 4 →
      manual_be32toh host (load host bytes) = be_sum bytes) ∧
    (∀ bytes : List Byte, bytes.length = 8 →
      manual_be64toh host (load host bytes) = be_sum bytes) := by
  refine ⟨?_, ?_, ?_, ?_, ?_, ?_⟩
  · intro hv
    rw [parse_be_u16 host v hv rest _ rfl, snprintf_digits _ _ hsize]
  · intro hv
    rw [parse_be_u32 host v hv rest _ rfl, snprintf_digits _ _ hsize]
  · intro hv
    rw [parse_be_u64 host v hv rest _ rfl, snprintf_digits _ _ hsize]
  · intro bytes hlen
    match bytes, hlen with
    | [b0, b1], _ =>
      rw [manual_be16toh_load]
      simp [be_sum, byte_at, List.range_succ]
  · intro bytes hlen
    match bytes, hlen with
    | [b0, b1, b2, b3], _ =>
      rw [manual_be32toh_load]
      simp [be_sum, byte_at, List.range_succ]
      omega
  · intro bytes hlen
    match bytes, hlen with
    | [b0, b1, b2, b3, b4, b5, b6, b7], _ =>
      rw [manual_be64toh_load]
      simp [be_sum, byte_at, List.range_succ]
      omega

theorem parse_binary_value_be_roundtrip_witness :
    parse_binary_value .little (be_encode 2 513 ++ [7]) ⟨[], 1, 2, TYPE_U16⟩ 256
        = some (Nat.toDigits 10 513) ∧
    parse_binary_value .big (be_encode 4 513 ++ [7]) ⟨[], 1, 4, TYPE_U32⟩ 256
        = some (Nat.toDigits 10 513) ∧
    parse_binary_value .little (be_encode 8 513 ++ [7]) ⟨[], 1, 8, TYPE_U64⟩ 256
        = some (Nat.toDigits 10 513) :=
  ⟨(parse_binary_value_be_roundtrip .little 513 [7] [] 1 2 256 (by decide)).1 (by decide),
   (parse_binary_value_be_roundtrip .big 513 [7] [] 1 4 256 (by decide)).2.1 (by decide),
   (parse_binary_value_be_roundtrip .little 513 [7] [] 1 8 256 (by decide)).2.2.1 (by decide)⟩

/-- C2: every six bytes `b0 .. b5` decoded as U48 give the decimal text of
`b0 * 2^40 + b1 * 2^32 + b2 * 2^24 + b3 * 2^16 + b4 * 2^8 + b5`, a value below
`2 ^ 48` (its high 16 bits are zero); the big-endian encoding of every
`v < 2 ^ 48` decodes to `v`; and `FF FF FF FF FF FF` decodes to
`281474976710655`.  The text is whole as soon as it fits the output buffer. -/
theorem parse_binary_value_u48 (host : ByteOrder) (name : List Char) (offset length : Int)
    (rest : List Byte) (output_size : Nat) :
    (∀ b0 b1 b2 b3 b4 b5 : Byte,
      (Nat.toDigits 10 (b0.val * 2 ^ 40 + b1.val * 2 ^ 32 + b2.val * 2 ^ 24 +
        b3.val * 2 ^ 16 + b4.val * 2 ^ 8 + b5.val)).length < output_size →
      parse_binary_value host (b0 :: b1 :: b2 :: b3 :: b4 :: b5 :: rest)
          ⟨name, offset, length, TYPE_U48⟩ output_size =
        some (Nat.toDigits 10 (b0.val * 2 ^ 40 + b1.val * 2 ^ 32 + b2.val * 2 ^ 24 +
          b3.val * 2 ^ 16 + b4.val * 2 ^ 8 + b5.val)) ∧
      b0.val * 2 ^ 40 + b1.val * 2 ^ 32 + b2.val * 2 ^ 24 +
        b3.val * 2 ^ 16 + b4.val * 2 ^ 8 + b5.val < 2 ^ 48) ∧
    (∀ v : Nat, v < 2 ^ 48 → (Nat.toDigits 10 v).length < output_size →
      parse_binary_value host (be_encode 6 v ++ rest) ⟨name, offset, length, TYPE_U48⟩
        output_size = some (Nat.toDigits 10 v)) ∧
    parse_binary_value host [0xFF, 0xFF, 0xFF, 0xFF, 0xFF, 0xFF]
      ⟨name, offset, length, TYPE_U48⟩ 256 = some "281474976710655".toList := by
  refine ⟨?_, ?_, ?_⟩
  · intro b0 b1 b2 b3 b4 b5 hsize
    refine ⟨?_, ?_⟩
    · rw [parse_u48 host _ _ _ _ _ _ _ _ rfl, snprintf_digits _ _ hsize]
    · have h0 := b0.isLt
      have h1 := b1.isLt
      have h2 := b2.isLt
      have h3 := b3.isLt
      have h4 := b4.isLt
      have h5 := b5.isLt
      omega
  · intro v hv hsize
    rw [parse_be_u48 host v hv rest _ rfl, snprintf_digits _ _ hsize]
  · rw [parse_u48 host _ _ _ _ _ _ _ _ rfl]
    decide

theorem parse_binary_value_u48_witness :
    (parse_binary_value .little ([0x00, 0x00, 0x00, 0x00, 0x01, 0x02] ++ [0x4F])
        ⟨[], 5, 6, TYPE_U48⟩ 256 =
      some (Nat.toDigits 10 ((0 : Byte).val * 2 ^ 40 + (0 : Byte).val * 2 ^ 32 +
        (0 : Byte).val * 2 ^ 24 + (0 : Byte).val * 2 ^ 16 + (1 : Byte).val * 2 ^ 8 +
        (2 : Byte).val)) ∧
      (0 : Byte).val * 2 ^ 40 + (0 : Byte).val * 2 ^ 32 + (0 : Byte).val * 2 ^ 24 +
        (0 : Byte).val * 2 ^ 16 + (1 : Byte).val * 2 ^ 8 + (2 : Byte).val < 2 ^ 48) ∧
    parse_binary_value .little (be_encode 6 34200000000000 ++ [0x4F])
      ⟨[], 5, 6, TYPE_U48⟩ 256 = some (Nat.toDigits 10 34200000000000) :=
  ⟨(parse_binary_value_u48 .little [] 5 6 [0x4F] 256).1 0 0 0 0 1 2 (by decide),
   (parse_binary_value_u48 .little [] 5 6 [0x4F] 256).2.1 34200000000000
    (by decide) (by decide)⟩

/-! ## binary64 rounding -/

theorem round_half_even_err (x d : Nat) (hd : 0 < d) :
    2 * x ≤ 2 * (round_half_even x d * d) + d ∧
      2 * (round_half_even x d * d) ≤ 2 * x + d := by
  have hx := Nat.div_add_mod x d
  have hr := Nat.mod_lt x hd
  unfold round_half_even
  simp only
  generalize x / d = q at hx ⊢
  generalize x % d = r at hx hr ⊢
  have e1 : q * d = d * q := Nat.mul_comm q d
  have e2 : (q + 1) * d = d * q + d := by rw [Nat.add_mul, Nat.one_mul, e1]
  generalize d * q = P at hx e1 e2
  split_ifs <;> simp only [e1, e2] <;> omega

theorem round_half_even_eq (x d n : Nat) (h1 : 2 * x < 2 * (n * d) + d)
    (h2 : 2 * (n * d) < 2 * x + d) : round_half_even x d = n := by
  have hd : 0 < d := by
    rcases Nat.eq_zero_or_pos d with h | h
    · subst h; omega
    · exact h
  have hx := Nat.div_add_mod x d
  have hr := Nat.mod_lt x hd
  unfold round_half_even
  simp only
  generalize x / d = q at hx ⊢
  generalize x % d = r at hx hr ⊢
  have e0 : n * d = d * n := Nat.mul_comm n d
  have hlt : n < q → d * n + d ≤ d * q := fun h => by
    have := Nat.mul_le_mul_left d (Nat.succ_le_of_lt h)
    rwa [Nat.mul_succ] at this
  have hgt : q < n → d * q + d ≤ d * n := fun h => by
    have := Nat.mul_le_mul_left d (Nat.succ_le_of_lt h)
    rwa [Nat.mul_succ] at this
  have hgt2 : q + 1 < n → d * q + d + d ≤ d * n := fun h => by
    have := Nat.mul_le_mul_left d (Nat.succ_le_of_lt h)
    rwa [Nat.mul_succ, Nat.mul_succ] at this
  rw [e0] at h1 h2
  rcases Nat.lt_trichotomy n q with h | h | h
  · have := hlt h
    split_ifs <;> omega
  · subst h
    split_ifs <;> omega
  · have := hgt h
    rcases Nat.lt_or_ge (q + 1) n with h' | h'
    · have := hgt2 h'
      split_ifs <;> omega
    · have hn : n = q + 1 := by omega
      subst hn
      split_ifs <;> omega

theorem round_half_even_one (x : Nat) : round_half_even x 1 = x := by
  simp [round_half_even, Nat.mod_one]

theorem round_half_even_scale (x d c : Nat) (hc : 0 < c) :
    round_half_even (x * c) (d * c) = round_half_even x d := by
  unfold round_half_even
  simp only
  rw [Nat.mul_div_mul_right x d hc, Nat.mul_mod_mul_right]
  have a1 : 2 * (x % d * c) < d * c ↔ 2 * (x % d) < d := by
    rw [← Nat.mul_assoc]
    exact Nat.mul_lt_mul_right hc
  have a2 : d * c < 2 * (x % d * c) ↔ d < 2 * (x % d) := by
    rw [← Nat.mul_assoc]
    exact Nat.mul_lt_mul_right hc
  simp only [a1, a2]

theorem quantum_up_scale (fuel a b c : Nat) (hc : 0 < c) :
    quantum_up fuel (a * c) (b * c) = quantum_up fuel a b := by
  induction fuel generalizing a with
  | zero => rfl
  | succ fuel ih =>
    have a1 : b * c * 2 ^ 52 ≤ a * c ↔ b * 2 ^ 52 ≤ a := by
      rw [Nat.mul_right_comm, ← Nat.not_lt, ← Nat.not_lt, Nat.mul_lt_mul_right hc]
    simp only [quantum_up, a1, ← Nat.mul_assoc, ih]

theorem quantum_down_scale (fuel a b c : Nat) (hc : 0 < c) :
    quantum_down fuel (a * c) (b * c) = quantum_down fuel a b := by
  induction fuel generalizing b with
  | zero => rfl
  | succ fuel ih =>
    have a1 : a * c < b * c * 2 ^ 53 ↔ a < b * 2 ^ 53 := by
      rw [Nat.mul_right_comm]
      exact Nat.mul_lt_mul_right hc
    simp only [quantum_down, a1, ← Nat.mul_assoc, ih]

theorem double_round_scale (a b c : Nat) (hc : 0 < c) :
    Double.round (a * c) (b * c) = Double.round a b := by
  have a1 : a * c < b * c * 2 ^ 53 ↔ a < b * 2 ^ 53 := by
    rw [Nat.mul_right_comm]
    exact Nat.mul_lt_mul_right hc
  unfold Double.round
  simp only [a1, quantum_up_scale _ _ _ _ hc, quantum_down_scale _ _ _ _ hc]
  split_ifs
  · rw [Nat.mul_right_comm, round_half_even_scale _ _ _ hc]
  · rw [Nat.mul_right_comm, round_half_even_scale _ _ _ hc]

theorem quantum_up_gt (b : Nat) (fuel a i : Nat) (hi : i < fuel)
    (h : a * 2 ^ i < b * 2 ^ 52) : i + 1 ≤ quantum_up fuel a b := by
  induction fuel generalizing a i with
  | zero => omega
  | succ fuel ih =>
    have hle : a ≤ a * 2 ^ i := Nat.le_mul_of_pos_right a (Nat.two_pow_pos i)
    have hnot : ¬ b * 2 ^ 52 ≤ a := by omega
    simp only [quantum_up, hnot, if_false]
    cases i with
    | zero => omega
    | succ i =>
      have h' : 2 * a * 2 ^ i < b * 2 ^ 52 := by
        rw [Nat.pow_succ] at h
        rw [Nat.mul_comm 2 a, Nat.mul_assoc, Nat.mul_comm 2 (2 ^ i)]
        exact h
      have := ih (2 * a) i (by omega) h'
      omega

/-- An integer below `2 ^ 53` converts to `double` without rounding, and dividing
it by the integer `b` gives the binary64 nearest to the quotient. -/
theorem double_div_ofNat (u b : Nat) (hu : u < 2 ^ 53) :
    Double.div (Double.ofNat u) ⟨b, 0⟩ = Double.round u b := by
  have h1 : u < 1 * 2 ^ 53 := by omega
  simp only [Double.div, Double.ofNat, Double.round, h1, if_true, round_half_even_one,
    Nat.pow_zero, Nat.mul_one]
  exact double_round_scale u b _ (Nat.two_pow_pos _)

/-- Printing with `prec` decimals the binary64 nearest to `u / 10 ^ prec` gives
back `u`, as long as the rounding error of the division stays below half a unit
of the last printed decimal. -/
theorem printf_f_round (prec u : Nat) (hprec : prec ≠ 0) (hu : u < 2 ^ 53)
    (i : Nat) (hi : i < 1074) (hpow : 10 ^ prec < 2 ^ (i + 1))
    (hq : u * 2 ^ i < 10 ^ prec * 2 ^ 52) :
    printf_f prec (Double.round u (10 ^ prec)) =
      Nat.toDigits 10 (u / 10 ^ prec) ++ '.' :: frac_digits prec (u % 10 ^ prec) := by
  have hB : 0 < 10 ^ prec := Nat.pos_pow_of_pos prec (by decide)
  have hlt : u < 10 ^ prec * 2 ^ 53 := by
    have : 1 * 2 ^ 53 ≤ 10 ^ prec * 2 ^ 53 := Nat.mul_le_mul_right _ hB
    omega
  have hk := quantum_up_gt (10 ^ prec) 1074 u i hi hq
  have hkpow : 2 ^ (i + 1) ≤ 2 ^ quantum_up 1074 u (10 ^ prec) :=
    Nat.pow_le_pow_right (by decide) hk
  have herr := round_half_even_err (u * 2 ^ quantum_up 1074 u (10 ^ prec)) (10 ^ prec) hB
  have hr : round_half_even
      (round_half_even (u * 2 ^ quantum_up 1074 u (10 ^ prec)) (10 ^ prec) * 10 ^ prec)
      (2 ^ quantum_up 1074 u (10 ^ prec)) = u := by
    apply round_half_even_eq <;> omega
  simp only [printf_f, Double.round, hlt, if_true, hr, hprec, if_false]


/-! ## Price kinds -/

theorem frac_digits_ne_nul (prec v : Nat) : ∀ c ∈ frac_digits prec v, c ≠ Char.ofNat 0 := by
  intro c hc
  simp only [frac_digits, List.mem_map] at hc
  obtain ⟨i, _, rfl⟩ := hc
  exact digitChar_ne_nul _

theorem frac_digits_length (prec v : Nat) : (frac_digits prec v).length = prec := by
  simp [frac_digits]

theorem fixed_text_ne_nul (prec a b : Nat) :
    ∀ c ∈ Nat.toDigits 10 a ++ '.' :: frac_digits prec b, c ≠ Char.ofNat 0 := by
  intro c hc
  rcases List.mem_append.mp hc with h | h
  · exact toDigits_ne_nul a c h
  · rcases List.mem_cons.mp h with h | h
    · rw [h]; decide
    · exact frac_digits_ne_nul prec b c h

theorem parse_price4 (host : ByteOrder) (b0 b1 b2 b3 : Byte) (rest : List Byte) (f : Field)
    (hf : f.type = TYPE_PRICE4) (output_size : Nat) :
    parse_binary_value host (b0 :: b1 :: b2 :: b3 :: rest) f output_size =
      snprintf output_size (printf_f 4 (Double.div (Double.ofNat
        (b0.val * 2 ^ 24 + b1.val * 2 ^ 16 + b2.val * 2 ^ 8 + b3.val)) ⟨10000, 0⟩)) := by
  simp [parse_binary_value, hf, manual_be32toh_load]

theorem parse_price8 (host : ByteOrder) (b0 b1 b2 b3 b4 b5 b6 b7 : Byte) (rest : List Byte)
    (f : Field) (hf : f.type = TYPE_PRICE8) (output_size : Nat) :
    parse_binary_value host (b0 :: b1 :: b2 :: b3 :: b4 :: b5 :: b6 :: b7 :: rest) f
        output_size =
      snprintf output_size (printf_f 8 (Double.div (Double.ofNat
        (b0.val * 2 ^ 56 + b1.val * 2 ^ 48 + b2.val * 2 ^ 40 + b3.val * 2 ^ 32 +
          b4.val * 2 ^ 24 + b5.val * 2 ^ 16 + b6.val * 2 ^ 8 + b7.val)) ⟨100000000, 0⟩)) := by
  simp [parse_binary_value, hf, manual_be64toh_load]

theorem parse_be_price4 (host : ByteOrder) (u : Nat) (hu : u < 2 ^ 32) (rest : List Byte)
    (f : Field) (hf : f.type = TYPE_PRICE4) (output_size : Nat) :
    parse_binary_value host (be_encode 4 u ++ rest) f output_size =
      snprintf output_size (printf_f 4 (Double.div (Double.ofNat u) ⟨10000, 0⟩)) := by
  simp only [be_encode, le_bytes, List.reverse_cons, List.reverse_nil, List.nil_append,
    List.cons_append]
  rw [parse_price4 host _ _ _ _ _ f hf]
  congr 5
  simp only
  omega

theorem parse_be_price8 (host : ByteOrder) (u : Nat) (hu : u < 2 ^ 64) (rest : List Byte)
    (f : Field) (hf : f.type = TYPE_PRICE8) (output_size : Nat) :
    parse_binary_value host (be_encode 8 u ++ rest) f output_size =
      snprintf output_size (printf_f 8 (Double.div (Double.ofNat u) ⟨100000000, 0⟩)) := by
  simp only [be_encode, le_bytes, List.reverse_cons, List.reverse_nil, List.nil_append,
    List.cons_append]
  rw [parse_price8 host _ _ _ _ _ _ _ _ _ f hf]
  congr 5
  simp only
  omega

theorem price4_text (u : Nat) (hu : u < 2 ^ 32) :
    printf_f 4 (Double.div (Double.ofNat u) ⟨10000, 0⟩) =
      Nat.toDigits 10 (u / 10000) ++ '.' :: frac_digits 4 (u % 10000) := by
  rw [double_div_ofNat u 10000 (by omega)]
  exact printf_f_round 4 u (by decide) (by omega) 13 (by decide) (by decide)
    (by norm_num; omega)

theorem price8_text (u : Nat) (hu : u < 6710886400000000) :
    printf_f 8 (Double.div (Double.ofNat u) ⟨100000000, 0⟩) =
      Nat.toDigits 10 (u / 100000000) ++ '.' :: frac_digits 8 (u % 100000000) := by
  rw [double_div_ofNat u 100000000 (by omega)]
  exact printf_f_round 8 u (by decide) (by omega) 26 (by decide) (by decide)
    (by norm_num; omega)

/-- C3: for every `u` below `2 ^ 32`, the big-endian encoding of `u` decoded as
PRICE4 gives the text `u / 10000`, a point, and `u mod 10000` on exactly four
digits, so that the printed decimal scaled by `10 ^ 4` is `u`; the text is whole
as soon as it fits the output buffer.  The bytes `00 01 86 A0` give
`10.0000`. -/
theorem parse_binary_value_price4 (host : ByteOrder) (u : Nat) (rest : List Byte)
    (name : List Char) (offset length : Int) (output_size : Nat) (hu : u < 2 ^ 32)
    (hsize : (Nat.toDigits 10 (u / 10000)).length + 5 < output_size) :
    parse_binary_value host (be_encode 4 u ++ rest) ⟨name, offset, length, TYPE_PRICE4⟩
        output_size =
      some (Nat.toDigits 10 (u / 10000) ++ '.' :: frac_digits 4 (u % 10000)) ∧
    (frac_digits 4 (u % 10000)).length = 4 ∧
    u / 10000 * 10 ^ 4 + u % 10000 = u ∧
    parse_binary_value host ([0x00, 0x01, 0x86, 0xA0] ++ rest)
        ⟨name, offset, length, TYPE_PRICE4⟩ 256 = some "10.0000".toList := by
  refine ⟨?_, frac_digits_length _ _, by omega, ?_⟩
  · rw [parse_be_price4 host u hu rest _ rfl, price4_text u hu]
    apply snprintf_fits _ _ (fixed_text_ne_nul _ _ _)
    simp only [List.length_append, List.length_cons, frac_digits_length]
    omega
  · have h := parse_be_price4 host 100000 (by decide) rest
      ⟨name, offset, length, TYPE_PRICE4⟩ rfl 256
    have e : be_encode 4 100000 = [0x00, 0x01, 0x86, 0xA0] := by decide
    rw [e] at h
    rw [h, price4_text 100000 (by decide)]
    decide

theorem parse_binary_value_price4_witness :
    parse_binary_value .little (be_encode 4 4294967295 ++ []) ⟨[], 32, 4, TYPE_PRICE4⟩ 256 =
      some (Nat.toDigits 10 (4294967295 / 10000) ++ '.' :: frac_digits 4 (4294967295 % 10000)) :=
  (parse_binary_value_price4 .little 4294967295 [] [] 32 4 256 (by decide) (by decide)).1

/-- C4, the code at `u = 6710886400000002`: the 8-byte big-endian encoding
decoded as PRICE8 prints `67108864.00000001`, while `u / 100000000` followed by
`u mod 100000000` on eight digits is `67108864.00000002`; and at `u = 2 ^ 64 - 1`
it prints `184467440737.09552002` for `184467440737.09551615`. -/
theorem parse_binary_value_price8_inexact :
    parse_binary_value .little (be_encode 8 6710886400000002) ⟨[], 0, 8, TYPE_PRICE8⟩ 256 =
      some "67108864.00000001".toList ∧
    Nat.toDigits 10 (6710886400000002 / 100000000) ++
        '.' :: frac_digits 8 (6710886400000002 % 100000000) = "67108864.00000002".toList ∧
    parse_binary_value .little (be_encode 8 18446744073709551615)
        ⟨[], 0, 8, TYPE_PRICE8⟩ 256 = some "184467440737.09552002".toList ∧
    Nat.toDigits 10 (18446744073709551615 / 100000000) ++
        '.' :: frac_digits 8 (18446744073709551615 % 100000000) =
      "184467440737.09551615".toList := by
  decide

/-- Below `2 ^ 26 * 10 ^ 8` the PRICE8 text is exact: `u / 100000000`, a point and
`u mod 100000000` on eight digits. -/
theorem parse_binary_value_price8_small (host : ByteOrder) (u : Nat) (rest : List Byte)
    (f : Field) (hf : f.type = TYPE_PRICE8) (output_size : Nat) (hu : u < 6710886400000000)
    (hsize : (Nat.toDigits 10 (u / 100000000)).length + 9 < output_size) :
    parse_binary_value host (be_encode 8 u ++ rest) f output_size =
      some (Nat.toDigits 10 (u / 100000000) ++ '.' :: frac_digits 8 (u % 100000000)) := by
  rw [parse_be_price8 host u (by omega) rest f hf, price8_text u hu]
  apply snprintf_fits _ _ (fixed_text_ne_nul _ _ _)
  simp only [List.length_append, List.length_cons, frac_digits_length]
  omega

/-! ## Text kinds -/

theorem takeWhile_append_stop {α : Type} (p : α → Bool) (l : List α) (x : α) (hx : p x = false) :
    (l ++ [x]).takeWhile p = l.takeWhile p := by
  induction l with
  | nil => simp [List.takeWhile, hx]
  | cons a l ih =>
    simp only [List.cons_append, List.takeWhile_cons]
    split
    · rw [ih]
    · rfl

theorem c_str_terminated (text : List Char) : c_str (text ++ [Char.ofNat 0]) = c_str text := by
  unfold c_str
  exact takeWhile_append_stop _ _ _ (by simp)

theorem c_str_length_le (text : List Char) : (c_str text).length ≤ text.length := by
  unfold c_str
  exact (List.takeWhile_sublist _).length_le

theorem c_str_ne_nul (text : List Char) : ∀ c ∈ c_str text, c ≠ Char.ofNat 0 := by
  intro c hc
  have := List.mem_takeWhile_imp hc
  simpa using this

theorem byte_char_ne_nul (b : Byte) (hb : b ≠ 0) : Char.ofNat b.val ≠ Char.ofNat 0 := by
  intro h
  have hvalid : b.val.isValidChar := Or.inl (by have := b.isLt; omega)
  have h1 : (Char.ofNat b.val).toNat = b.val := by
    simp only [Char.ofNat, hvalid, dite_true, Char.ofNatAux, Char.toNat]
    rfl
  rw [h] at h1
  exact hb (Fin.ext h1.symm)

theorem parse_char_array (host : ByteOrder) (bytes rest : List Byte) (f : Field)
    (hf : f.type = TYPE_CHAR_ARRAY) (hlen : f.length = (bytes.length : Int))
    (hmax : bytes.length < TEMP_SIZE) (output_size : Nat) (hsize : bytes.length < output_size) :
    parse_binary_value host (bytes ++ rest) f output_size =
      some (c_str (bytes.map fun b => Char.ofNat b.val)) := by
  have h1 : ¬ ((bytes.length : Int) < 0) := by omega
  have h2 : ¬ (bytes.length + rest.length < bytes.length) := by omega
  have h3 : ¬ (TEMP_SIZE ≤ bytes.length) := by omega
  simp only [parse_binary_value, hf, hlen, h1, if_false, Int.toNat_ofNat, List.length_append,
    h2, h3, List.take_left', c_str_terminated]
  apply snprintf_fits _ _ (c_str_ne_nul _)
  have := c_str_length_le (bytes.map fun b => Char.ofNat b.val)
  rw [List.length_map] at this
  omega

/-- C5, the claim as stated fails: a CHAR_ARRAY field of length 4 over the bytes
`41 00 42 20` yields the one-character text `A`, not the four bytes. -/
theorem parse_binary_value_char_array_nul :
    parse_binary_value .little [0x41, 0x00, 0x42, 0x20] ⟨[], 0, 4, TYPE_CHAR_ARRAY⟩ 256 =
      some ['A'] ∧
    parse_binary_value .little [0x41, 0x00, 0x42, 0x20] ⟨[], 0, 4, TYPE_CHAR_ARRAY⟩ 256 ≠
      some (([0x41, 0x00, 0x42, 0x20] : List Byte).map fun b => Char.ofNat b.val) := by
  decide

/-- C5, amended: for every CHAR_ARRAY field of length `n` with `1 ≤ n ≤ 63` and
every `n` bytes at its offset, none of them `0x00`, `parse_binary_value` (with an
output buffer of more than `n` bytes) outputs exactly those `n` bytes as text,
in order, with nothing stripped: the output has length `n` and trailing `0x20`
bytes are kept.  In general the text is the bytes before the first `0x00`. -/
theorem parse_binary_value_char_array (host : ByteOrder) (bytes rest : List Byte)
    (name : List Char) (offset : Int) (output_size : Nat)
    (hmin : 1 ≤ bytes.length) (hmax : bytes.length ≤ 63) (hsize : bytes.length < output_size) :
    parse_binary_value host (bytes ++ rest)
        ⟨name, offset, (bytes.length : Int), TYPE_CHAR_ARRAY⟩ output_size =
      some (c_str (bytes.map fun b => Char.ofNat b.val)) ∧
    ((∀ b ∈ bytes, b ≠ 0) →
      ∃ text, parse_binary_value host (bytes ++ rest)
          ⟨name, offset, (bytes.length : Int), TYPE_CHAR_ARRAY⟩ output_size = some text ∧
        text = bytes.map (fun b => Char.ofNat b.val) ∧ text.length = bytes.length ∧
        ∀ k : Nat, (List.replicate k (0x20 : Byte)) <:+ bytes →
          (List.replicate k ' ') <:+ text) := by
  have hparse := parse_char_array host bytes rest
    ⟨name, offset, (bytes.length : Int), TYPE_CHAR_ARRAY⟩ rfl rfl
    (by unfold TEMP_SIZE; omega) output_size hsize
  refine ⟨hparse, ?_⟩
  intro hnz
  refine ⟨bytes.map (fun b => Char.ofNat b.val), ?_, rfl, by simp, ?_⟩
  · rw [hparse, c_str_of_no_nul]
    intro c hc
    obtain ⟨b, hb, rfl⟩ := List.mem_map.mp hc
    exact byte_char_ne_nul b (hnz b hb)
  · intro k hk
    obtain ⟨front, hfront⟩ := hk
    refine ⟨front.map (fun b => Char.ofNat b.val), ?_⟩
    rw [← hfront, List.map_append, List.map_replicate]
    rfl

theorem parse_binary_value_char_array_witness :
    ∃ text, parse_binary_value .big ([0x41, 0x42, 0x20, 0x20] ++ [0x07])
        ⟨[], 1, 4, TYPE_CHAR_ARRAY⟩ 256 = some text ∧
      text = ([0x41, 0x42, 0x20, 0x20] : List Byte).map (fun b => Char.ofNat b.val) ∧
      text.length = 4 ∧
      ∀ k : Nat, (List.replicate k (0x20 : Byte)) <:+ [0x41, 0x42, 0x20, 0x20] →
        (List.replicate k ' ') <:+ text :=
  (parse_binary_value_char_array .big [0x41, 0x42, 0x20, 0x20] [0x07] [] 1 256
    (by decide) (by decide) (by decide)).2 (by simp)

/-! ## `get_field_type` -/

theorem strncmp_literal (lit rest : List Char) : strncmp (lit ++ rest) lit lit.length = 0 := by
  induction lit with
  | nil => simp [strncmp]
  | cons c lit ih => simp [strncmp, ih]

/-- C6: `get_field_type` maps a type string by prefix, in the stated priority
order: a string starting with `char_t` maps to CHAR, `u8_t` to U8, `u16_t` to
U16, `u32_t` to U32, `u48_t` to U48, `u64_t` to U64, `price_4_t` to PRICE4,
`price_8_t` to PRICE8, and a string starting with `char_` but not with `char_t`
to CHAR_ARRAY. -/
theorem get_field_type_priority (type_str : List Char) :
    ("char_t".toList <+: type_str → get_field_type type_str = TYPE_CHAR) ∧
    ("u8_t".toList <+: type_str → get_field_type type_str = TYPE_U8) ∧
    ("u16_t".toList <+: type_str → get_field_type type_str = TYPE_U16) ∧
    ("u32_t".toList <+: type_str → get_field_type type_str = TYPE_U32) ∧
    ("u48_t".toList <+: type_str → get_field_type type_str = TYPE_U48) ∧
    ("u64_t".toList <+: type_str → get_field_type type_str = TYPE_U64) ∧
    ("price_4_t".toList <+: type_str → get_field_type type_str = TYPE_PRICE4) ∧
    ("price_8_t".toList <+: type_str → get_field_type type_str = TYPE_PRICE8) ∧
    ("char_".toList <+: type_str → ¬ "char_t".toList <+: type_str →
      get_field_type type_str = TYPE_CHAR_ARRAY) := by
  refine ⟨?_, ?_, ?_, ?_, ?_, ?_, ?_, ?_, ?_⟩
  · rintro ⟨t, rfl⟩
    simp [get_field_type, strncmp]
  · rintro ⟨t, rfl⟩
    simp [get_field_type, strncmp]
  · rintro ⟨t, rfl⟩
    simp [get_field_type, strncmp]
  · rintro ⟨t, rfl⟩
    simp [get_field_type, strncmp]
  · rintro ⟨t, rfl⟩
    simp [get_field_type, strncmp]
  · rintro ⟨t, rfl⟩
    simp [get_field_type, strncmp]
  · rintro ⟨t, rfl⟩
    simp [get_field_type, strncmp]
  · rintro ⟨t, rfl⟩
    simp [get_field_type, strncmp]
  · rintro ⟨t, rfl⟩ hnot
    cases t with
    | nil => simp [get_field_type, strncmp]
    | cons c t =>
      have hc : c ≠ 't' := by
        intro h
        apply hnot
        subst h
        exact ⟨t, rfl⟩
      have hn : c.toNat ≠ 116 := fun h => hc (by rw [← Char.ofNat_toNat c, h])
      have hi : ¬ ((c.toNat : Int) - 116 = 0) := by omega
      simp [get_field_type, strncmp, hc, hi]

theorem get_field_type_priority_witness :
    get_field_type "char_t".toList = TYPE_CHAR ∧
    get_field_type "u8_t".toList = TYPE_U8 ∧
    get_field_type "u16_t".toList = TYPE_U16 ∧
    get_field_type "u32_t".toList = TYPE_U32 ∧
    get_field_type "u48_t".toList = TYPE_U48 ∧
    get_field_type "u64_t".toList = TYPE_U64 ∧
    get_field_type "price_4_t".toList = TYPE_PRICE4 ∧
    get_field_type "price_8_t".toList = TYPE_PRICE8 ∧
    get_field_type "char_8_t".toList = TYPE_CHAR_ARRAY :=
  ⟨(get_field_type_priority "char_t".toList).1 (by decide),
   (get_field_type_priority "u8_t".toList).2.1 (by decide),
   (get_field_type_priority "u16_t".toList).2.2.1 (by decide),
   (get_field_type_priority "u32_t".toList).2.2.2.1 (by decide),
   (get_field_type_priority "u48_t".toList).2.2.2.2.1 (by decide),
   (get_field_type_priority "u64_t".toList).2.2.2.2.2.1 (by decide),
   (get_field_type_priority "price_4_t".toList).2.2.2.2.2.2.1 (by decide),
   (get_field_type_priority "price_8_t".toList).2.2.2.2.2.2.2.1 (by decide),
   (get_field_type_priority "char_8_t".toList).2.2.2.2.2.2.2.2 (by decide) (by decide)⟩

/-! ## Framing -/

theorem be16_header (host : ByteOrder) (n : Nat) (hn : n < 65536) :
    manual_be16toh host (load host (be_encode 2 n)) = n := by
  rw [be_encode_2, manual_be16toh_load]
  simp only
  omega

theorem be_encode_length (n v : Nat) : (be_encode n v).length = n := by
  simp [be_encode, le_bytes_length]

theorem encode_frame_length (p : List Byte) : (encode_frame p).length = 2 + p.length := by
  simp [encode_frame, be_encode_length]

theorem encode_stream_length (ps : List (List Byte)) :
    (encode_stream ps).length = frames_size ps := by
  induction ps with
  | nil => rfl
  | cons p ps ih =>
    simp only [encode_stream, List.length_append, encode_frame_length, ih, frames_size,
      List.map_cons, List.sum_cons]

theorem frames_size_ge (ps : List (List Byte)) : 2 * ps.length ≤ frames_size ps := by
  induction ps with
  | nil => simp [frames_size]
  | cons p ps ih =>
    simp only [frames_size, List.map_cons, List.sum_cons, List.length_cons] at ih ⊢
    omega

theorem loop_body_frame (host : ByteOrder) (specs : List MessageSpec) (p rest : List Byte)
    (hp : p.length < 65536) (pos c : Nat) (out : List DecodedMessage) :
    loop_body host specs ⟨⟨pos, encode_frame p ++ rest⟩, c, out⟩ =
      match dispatch host specs p c out with
      | none => Step.undefined
      | some (c', out') => Step.proceed ⟨⟨pos + 2 + p.length, rest⟩, c', out'⟩ := by
  have hlen : (be_encode 2 p.length).length = 2 := be_encode_length 2 _
  have htake : (encode_frame p ++ rest).take 2 = be_encode 2 p.length := by
    rw [encode_frame, List.append_assoc, List.take_left' hlen]
  have hdrop : (encode_frame p ++ rest).drop 2 = p ++ rest := by
    rw [encode_frame, List.append_assoc, List.drop_left' hlen]
  simp only [loop_body, fread, Nat.mul_one, Nat.one_mul, htake, hdrop, hlen,
    be16_header host _ hp, List.take_left', List.drop_left', Nat.div_one]
  simp only [Nat.reduceDiv, ne_eq, not_true_eq_false, if_false, OfNat.ofNat_ne_zero,
    OfNat.one_ne_ofNat, one_ne_zero]

theorem loop_body_truncated (host : ByteOrder) (specs : List MessageSpec) (tail : List Byte)
    (ht : Truncated tail) (pos c : Nat) (out : List DecodedMessage) :
    loop_body host specs ⟨⟨pos, tail⟩, c, out⟩ =
      Step.stop ⟨⟨pos + tail.length, []⟩, c, out⟩ := by
  match tail, ht with
  | [], _ => simp [loop_body, fread]
  | [h], _ => simp [loop_body, fread]
  | h0 :: h1 :: rest, ht =>
    simp only [Truncated] at ht
    have hne : rest.length ≠ h0.val * 256 + h1.val := by omega
    have hdrop : rest.drop (h0.val * 256 + h1.val) = [] := List.drop_of_length_le (by omega)
    have htake : rest.take (h0.val * 256 + h1.val) = rest := List.take_of_length_le (by omega)
    simp [loop_body, fread, manual_be16toh_load, hne, hdrop, htake]
    omega

theorem frame_split (h0 h1 : Byte) (rest : List Byte)
    (h : ¬ rest.length < h0.val * 256 + h1.val) :
    (rest.take (h0.val * 256 + h1.val)).length < 65536 ∧
      h0 :: h1 :: rest =
        encode_frame (rest.take (h0.val * 256 + h1.val)) ++
          rest.drop (h0.val * 256 + h1.val) := by
  have h0' := h0.isLt
  have h1' := h1.isLt
  have hl : (rest.take (h0.val * 256 + h1.val)).length = h0.val * 256 + h1.val := by
    rw [List.length_take]
    omega
  refine ⟨by omega, ?_⟩
  rw [encode_frame, hl, be_encode_2, List.append_assoc, List.take_append_drop]
  simp only [List.cons_append, List.nil_append, List.cons.injEq, and_true]
  constructor
  · apply Fin.ext
    simp only
    omega
  · apply Fin.ext
    simp only
    omega

theorem frame_or_truncated (bytes : List Byte) :
    Truncated bytes ∨ ∃ p rest, p.length < 65536 ∧ bytes = encode_frame p ++ rest := by
  match bytes with
  | [] => exact Or.inl trivial
  | [h] => exact Or.inl trivial
  | h0 :: h1 :: rest =>
    by_cases h : rest.length < h0.val * 256 + h1.val
    · exact Or.inl h
    · exact Or.inr ⟨_, _, (frame_split h0 h1 rest h).1, (frame_split h0 h1 rest h).2⟩

theorem loop_body_continue (host : ByteOrder) (specs : List MessageSpec) (s s' : LoopState)
    (h : loop_body host specs s = Step.proceed s') :
    ∃ p, p.length < 65536 ∧ s.file.unread = encode_frame p ++ s'.file.unread ∧
      s'.file.position = s.file.position + 2 + p.length ∧
      dispatch host specs p s.messages_processed s.printed =
        some (s'.messages_processed, s'.printed) := by
  obtain ⟨⟨pos, unread⟩, c, out⟩ := s
  rcases frame_or_truncated unread with ht | ⟨p, rest, hp, rfl⟩
  · rw [loop_body_truncated host specs unread ht] at h
    cases h
  · rw [loop_body_frame host specs p rest hp] at h
    cases hd : dispatch host specs p c out with
    | none => rw [hd] at h; cases h
    | some r =>
      rw [hd] at h
      simp only [Step.proceed.injEq] at h
      subst h
      exact ⟨p, hp, rfl, rfl, hd⟩

theorem complete_frames_aux_spec (fuel : Nat) (bytes : List Byte) (hfuel : bytes.length ≤ fuel) :
    ∃ tail, bytes = encode_stream (complete_frames_aux fuel bytes) ++ tail ∧ Truncated tail ∧
      ∀ p ∈ complete_frames_aux fuel bytes, p.length < 65536 := by
  induction fuel generalizing bytes with
  | zero =>
    have : bytes = [] := List.eq_nil_of_length_eq_zero (by omega)
    subst this
    exact ⟨[], rfl, trivial, by simp [complete_frames_aux]⟩
  | succ fuel ih =>
    match bytes, hfuel with
    | [], _ => exact ⟨[], rfl, trivial, by simp [complete_frames_aux]⟩
    | [h], _ => exact ⟨[h], rfl, trivial, by simp [complete_frames_aux]⟩
    | h0 :: h1 :: rest, hfuel =>
      by_cases h : rest.length < h0.val * 256 + h1.val
      · refine ⟨h0 :: h1 :: rest, ?_, h, ?_⟩
        · simp [complete_frames_aux, h, encode_stream]
        · simp [complete_frames_aux, h]
      · obtain ⟨hp, hsplit⟩ := frame_split h0 h1 rest h
        have hlen : (rest.drop (h0.val * 256 + h1.val)).length ≤ fuel := by
          rw [List.length_drop]
          simp only [List.length_cons] at hfuel
          omega
        obtain ⟨tail, htail, htr, hall⟩ := ih _ hlen
        refine ⟨tail, ?_, htr, ?_⟩
        · simp only [complete_frames_aux, h, if_false, encode_stream, List.append_assoc]
          rw [← htail]
          exact hsplit
        · intro p hmem
          simp only [complete_frames_aux, h, if_false, List.mem_cons] at hmem
          rcases hmem with rfl | hmem
          · exact hp
          · exact hall p hmem

theorem complete_frames_spec (bytes : List Byte) :
    ∃ tail, bytes = encode_stream (complete_frames bytes) ++ tail ∧ Truncated tail ∧
      ∀ p ∈ complete_frames bytes, p.length < 65536 :=
  complete_frames_aux_spec bytes.length bytes (Nat.le_refl _)

theorem frames_loop_stop (host : ByteOrder) (specs : List MessageSpec) (n : Int)
    (tail : List Byte) (ps : List (List Byte)) (pos c : Nat) (out : List DecodedMessage)
    (h : ¬ (c : Int) < n) :
    frames_loop host specs n tail ps pos c out =
      Outcome.finished ⟨⟨pos, encode_stream ps ++ tail⟩, c, out⟩ := by
  cases ps with
  | nil => simp [frames_loop, h, encode_stream]
  | cons p ps => simp [frames_loop, h]

theorem main_loop_frames (host : ByteOrder) (specs : List MessageSpec) (n : Int)
    (tail : List Byte) (ht : Truncated tail) (ps : List (List Byte))
    (hps : ∀ p ∈ ps, p.length < 65536) (fuel pos c : Nat) (out : List DecodedMessage)
    (hfuel : ps.length < fuel) :
    main_loop host specs n fuel ⟨⟨pos, encode_stream ps ++ tail⟩, c, out⟩ =
      frames_loop host specs n tail ps pos c out := by
  induction ps generalizing fuel pos c out with
  | nil =>
    cases fuel with
    | zero => omega
    | succ fuel =>
      by_cases hc : (c : Int) < n
      · simp [main_loop, frames_loop, hc, encode_stream, loop_body_truncated host specs tail ht]
      · simp [main_loop, frames_loop, hc, encode_stream]
  | cons p ps ih =>
    cases fuel with
    | zero => omega
    | succ fuel =>
      have hp : p.length < 65536 := hps p (List.mem_cons_self _ _)
      have hps' : ∀ q ∈ ps, q.length < 65536 := fun q hq => hps q (List.mem_cons_of_mem _ hq)
      by_cases hc : (c : Int) < n
      · simp only [main_loop, frames_loop, hc, if_true, encode_stream, List.append_assoc,
          loop_body_frame host specs p _ hp]
        cases hd : dispatch host specs p c out with
        | none => rfl
        | some r =>
          simp only
          exact ih hps' fuel _ _ _ (by simp only [List.length_cons] at hfuel; omega)
      · simp [main_loop, frames_loop, hc]

theorem run_frames (host : ByteOrder) (specs : List MessageSpec) (n : Int)
    (tail : List Byte) (ht : Truncated tail) (ps : List (List Byte))
    (hps : ∀ p ∈ ps, p.length < 65536) :
    run host specs (encode_stream ps ++ tail) n = frames_loop host specs n tail ps 0 0 [] := by
  unfold run initial_state
  apply main_loop_frames host specs n tail ht ps hps
  have := frames_size_ge ps
  rw [List.length_append, encode_stream_length]
  omega

theorem frames_loop_ne_out_of_fuel (host : ByteOrder) (specs : List MessageSpec) (n : Int)
    (tail : List Byte) (ps : List (List Byte)) (pos c : Nat) (out : List DecodedMessage) :
    frames_loop host specs n tail ps pos c out ≠ Outcome.out_of_fuel := by
  induction ps generalizing pos c out with
  | nil =>
    simp only [frames_loop]
    split <;> simp
  | cons p ps ih =>
    simp only [frames_loop]
    split
    · cases hd : dispatch host specs p c out with
      | none => simp
      | some r => exact ih _ _ _
    · simp

theorem run_ne_out_of_fuel (host : ByteOrder) (specs : List MessageSpec) (bytes : List Byte)
    (n : Int) : run host specs bytes n ≠ Outcome.out_of_fuel := by
  obtain ⟨tail, hb, ht, hps⟩ := complete_frames_spec bytes
  have h := run_frames host specs n tail ht (complete_frames bytes) hps
  rw [← hb] at h
  rw [h]
  exact frames_loop_ne_out_of_fuel _ _ _ _ _ _ _ _

theorem iterate_frames (host : ByteOrder) (specs : List MessageSpec) (n : Int) (k : Nat)
    (s0 s : LoopState) (h : iterate host specs n k s0 = some s) :
    ∃ payloads : List (List Byte), payloads.length = k ∧
      (∀ p ∈ payloads, p.length < 65536) ∧
      s0.file.unread = encode_stream payloads ++ s.file.unread ∧
      s.file.position = s0.file.position + frames_size payloads := by
  induction k generalizing s0 with
  | zero =>
    simp only [iterate, Option.some.injEq] at h
    subst h
    exact ⟨[], rfl, by simp, rfl, by simp [frames_size]⟩
  | succ k ih =>
    simp only [iterate] at h
    split at h
    · cases hb : loop_body host specs s0 with
      | proceed s1 =>
        rw [hb] at h
        obtain ⟨p, hp, hun, hpos, _⟩ := loop_body_continue host specs s0 s1 hb
        obtain ⟨ps, hlen, hall, hun', hpos'⟩ := ih s1 h
        refine ⟨p :: ps, by simp [hlen], ?_, ?_, ?_⟩
        · intro q hq
          rcases List.mem_cons.mp hq with rfl | hq
          · exact hp
          · exact hall q hq
        · rw [hun, hun', encode_stream, List.append_assoc]
        · rw [hpos', hpos]
          simp only [frames_size, List.map_cons, List.sum_cons]
          omega
      | stop s1 => rw [hb] at h; cases h
      | undefined => rw [hb] at h; cases h
    · cases h

/-- C7: for every byte stream, catalog and limit, once the loop has read `k`
records (recognized or not) the bytes consumed are exactly those `k` records,
each a big-endian 16-bit length `L_i` followed by exactly `L_i` payload bytes,
and the file position is the sum of `2 + L_i`; the layout declared by the
catalog plays no part. -/
theorem framing_byte_exact (host : ByteOrder) (message_specs : List MessageSpec)
    (num_messages : Int) (bytes : List Byte) (k : Nat) (s : LoopState)
    (h : iterate host message_specs num_messages k (initial_state bytes) = some s) :
    ∃ payloads : List (List Byte), payloads.length = k ∧
      (∀ p ∈ payloads, p.length < 65536) ∧
      bytes = encode_stream payloads ++ s.file.unread ∧
      s.file.position = (payloads.map fun p => 2 + p.length).sum ∧
      s.file.position + s.file.unread.length = bytes.length := by
  obtain ⟨ps, hlen, hall, hun, hpos⟩ := iterate_frames host message_specs num_messages k _ s h
  simp only [initial_state, Nat.zero_add] at hun hpos
  refine ⟨ps, hlen, hall, hun, hpos, ?_⟩
  rw [hun, List.length_append, encode_stream_length, hpos]

theorem framing_byte_exact_witness :
    ∃ payloads : List (List Byte), payloads.length = 2 ∧
      (∀ p ∈ payloads, p.length < 65536) ∧
      ([0, 1, 0x5A, 0, 2, 0x41, 0x42, 0] : List Byte) = encode_stream payloads ++ [0] ∧
      7 = (payloads.map fun p => 2 + p.length).sum ∧
      7 + 1 = 8 :=
  framing_byte_exact .little [⟨0x5A, 9, []⟩] 5 [0, 1, 0x5A, 0, 2, 0x41, 0x42, 0] 2
    ⟨⟨7, [0]⟩, 1, [⟨1, 'Z', []⟩]⟩ (by decide)

/-! ## Dispatch -/

theorem dispatch_recognized (host : ByteOrder) (specs : List MessageSpec) (p : List Byte)
    (c : Nat) (out : List DecodedMessage) (h : recognized specs p = true) :
    dispatch host specs p c out =
      (decode_message host specs (c + 1) p).map fun m => (c + 1, out ++ [m]) := by
  cases p with
  | nil => simp [recognized] at h
  | cons t body =>
    simp only [recognized] at h
    cases hf : find_message_spec specs t with
    | none => simp [hf] at h
    | some spec =>
      simp only [dispatch, decode_message, hf]
      cases decode_fields host (t :: body) spec.fields <;> rfl

theorem dispatch_unknown (host : ByteOrder) (specs : List MessageSpec) (p : List Byte)
    (c : Nat) (out : List DecodedMessage) (hne : p ≠ []) (h : recognized specs p = false) :
    dispatch host specs p c out = some (c, out) := by
  cases p with
  | nil => exact absurd rfl hne
  | cons t body =>
    simp only [recognized] at h
    cases hf : find_message_spec specs t with
    | none => simp [dispatch, hf]
    | some spec => simp [hf] at h

theorem dispatch_nil (host : ByteOrder) (specs : List MessageSpec)
    (c : Nat) (out : List DecodedMessage) : dispatch host specs [] c out = none := rfl

theorem decode_message_isSome (host : ByteOrder) (specs : List MessageSpec) (i j : Nat)
    (p : List Byte) :
    (decode_message host specs i p).isSome = (decode_message host specs j p).isSome := by
  cases p with
  | nil => rfl
  | cons t body =>
    cases hf : find_message_spec specs t with
    | none => simp [decode_message, hf]
    | some spec => simp [decode_message, hf]

theorem dispatch_isSome (host : ByteOrder) (specs : List MessageSpec) (p : List Byte)
    (c : Nat) (out : List DecodedMessage) :
    (dispatch host specs p c out).isSome = (dispatch host specs p 0 []).isSome := by
  cases p with
  | nil => rfl
  | cons t body =>
    cases hr : recognized specs (t :: body) with
    | true =>
      rw [dispatch_recognized _ _ _ _ _ hr, dispatch_recognized _ _ _ _ _ hr]
      simp only [Option.isSome_map']
      exact decode_message_isSome _ _ _ _ _
    | false =>
      rw [dispatch_unknown _ _ _ _ _ (by simp) hr, dispatch_unknown _ _ _ _ _ (by simp) hr]
      rfl

/-- The messages printed for the first `k` recognized records of `ps`, numbered
from `c + 1`. -/
theorem frames_loop_limit (host : ByteOrder) (specs : List MessageSpec) (tail : List Byte)
    (ps : List (List Byte)) (pos c k : Nat) (out : List DecodedMessage) (s : LoopState)
    (h : frames_loop host specs ((c + k : Nat) : Int) tail ps pos c out = Outcome.finished s) :
    s.messages_processed = c + min k (ps.filter (recognized specs)).length ∧
    s.printed.map some = out.map some ++
      ((((ps.filter (recognized specs)).take k).enumFrom (c + 1)).map fun jp =>
        decode_message host specs jp.1 jp.2) ∧
    s.file.position = pos + frames_size (frames_read specs k ps) +
      (if (ps.filter (recognized specs)).length < k then tail.length else 0) := by
  induction ps generalizing pos c k out with
  | nil =>
    cases k with
    | zero =>
      simp only [frames_loop, Nat.add_zero, Int.lt_irrefl, if_false,
        Outcome.finished.injEq] at h
      subst h
      simp [frames_read, frames_size]
    | succ k =>
      have hc : ((c : Nat) : Int) < ((c + (k + 1) : Nat) : Int) := by omega
      simp only [frames_loop, hc, if_true, Outcome.finished.injEq] at h
      subst h
      simp [frames_read, frames_size]
  | cons p ps ih =>
    cases k with
    | zero =>
      simp only [frames_loop, Nat.add_zero, Int.lt_irrefl, if_false,
        Outcome.finished.injEq] at h
      subst h
      simp [frames_read, frames_size]
    | succ k =>
      have hc : ((c : Nat) : Int) < ((c + (k + 1) : Nat) : Int) := by omega
      simp only [frames_loop, hc, if_true] at h
      cases hr : recognized specs p with
      | true =>
        rw [dispatch_recognized _ _ _ _ _ hr] at h
        cases hm : decode_message host specs (c + 1) p with
        | none => rw [hm] at h; cases h
        | some m =>
          rw [hm] at h
          simp only [Option.map_some'] at h
          have e : c + (k + 1) = (c + 1) + k := by omega
          rw [e] at h
          obtain ⟨h1, h2, h3⟩ := ih _ _ _ _ h
          refine ⟨?_, ?_, ?_⟩
          · rw [h1]
            simp only [List.filter_cons, hr, if_true, List.length_cons]
            omega
          · rw [h2]
            simp [List.filter_cons, hr, List.enumFrom_cons, hm]
          · rw [h3]
            simp only [List.filter_cons, hr, if_true, List.length_cons, frames_read,
              frames_size, List.map_cons, List.sum_cons, Nat.add_lt_add_iff_right]
            omega
      | false =>
        have hne : p ≠ [] := by
          intro hnil
          subst hnil
          rw [dispatch_nil] at h
          cases h
        rw [dispatch_unknown _ _ _ _ _ hne hr] at h
        simp only at h
        obtain ⟨h1, h2, h3⟩ := ih _ _ _ _ h
        refine ⟨?_, ?_, ?_⟩
        · rw [h1]
          simp [List.filter_cons, hr]
        · rw [h2]
          simp [List.filter_cons, hr]
        · rw [h3]
          simp only [List.filter_cons, hr, frames_read, frames_size, List.map_cons,
            List.sum_cons, Bool.false_eq_true, if_false]
          omega

theorem frames_loop_defined (host : ByteOrder) (specs : List MessageSpec) (tail : List Byte)
    (ps : List (List Byte)) (pos c k : Nat) (out : List DecodedMessage)
    (hdef : ∀ p ∈ frames_read specs k ps, (dispatch host specs p 0 []).isSome = true) :
    ∃ s, frames_loop host specs ((c + k : Nat) : Int) tail ps pos c out =
      Outcome.finished s := by
  induction ps generalizing pos c k out with
  | nil =>
    simp only [frames_loop]
    split <;> exact ⟨_, rfl⟩
  | cons p ps ih =>
    cases k with
    | zero =>
      simp only [frames_loop, Nat.add_zero, Int.lt_irrefl, if_false]
      exact ⟨_, rfl⟩
    | succ k =>
      have hc : ((c : Nat) : Int) < ((c + (k + 1) : Nat) : Int) := by omega
      simp only [frames_loop, hc, if_true]
      have hp : (dispatch host specs p c out).isSome = true := by
        rw [dispatch_isSome]
        exact hdef p (by simp [frames_read])
      cases hr : recognized specs p with
      | true =>
        rw [dispatch_recognized _ _ _ _ _ hr] at hp ⊢
        cases hm : decode_message host specs (c + 1) p with
        | none => rw [hm] at hp; simp at hp
        | some m =>
          simp only [Option.map_some']
          have e : c + (k + 1) = (c + 1) + k := by omega
          rw [e]
          apply ih
          intro q hq
          exact hdef q (by simp [frames_read, hr, hq])
      | false =>
        have hne : p ≠ [] := by
          intro hnil
          subst hnil
          rw [dispatch_nil] at hp
          simp at hp
        rw [dispatch_unknown _ _ _ _ _ hne hr]
        simp only
        apply ih
        intro q hq
        exact hdef q (by simp [frames_read, hr, hq])

/-- C9: for every catalog, byte stream and limit `n`, the loop ends (it never runs
out of iterations), and when it ends with defined behaviour it has printed
exactly `min n r` messages, `r` the number of complete records whose type-id is
in the catalog: the first `min n r` recognized records, in file order, numbered
from 1.  Once the counter has reached `n` no further record is read: the file
position is just behind the `n`-th recognized record; when fewer than `n` are
recognized the whole file is consumed.  The behaviour is defined as soon as
dispatching each record that is read is. -/
theorem dispatcher_limit (host : ByteOrder) (message_specs : List MessageSpec)
    (bytes : List Byte) (n : Nat) :
    run host message_specs bytes (n : Int) ≠ Outcome.out_of_fuel ∧
    ((∀ p ∈ frames_read message_specs n (complete_frames bytes),
        (dispatch host message_specs p 0 []).isSome = true) →
      ∃ s, run host message_specs bytes (n : Int) = Outcome.finished s) ∧
    (∀ s, run host message_specs bytes (n : Int) = Outcome.finished s →
      s.messages_processed =
        min n ((complete_frames bytes).filter (recognized message_specs)).length ∧
      s.printed.length =
        min n ((complete_frames bytes).filter (recognized message_specs)).length ∧
      s.printed.map some =
        (((((complete_frames bytes).filter (recognized message_specs)).take n).enumFrom 1).map
          fun jp => decode_message host message_specs jp.1 jp.2) ∧
      (n ≤ ((complete_frames bytes).filter (recognized message_specs)).length →
        s.file.position = frames_size (frames_read message_specs n (complete_frames bytes))) ∧
      (((complete_frames bytes).filter (recognized message_specs)).length < n →
        s.file.position = bytes.length)) := by
  obtain ⟨tail, hb, ht, hps⟩ := complete_frames_spec bytes
  have hrun := run_frames host message_specs (n : Int) tail ht (complete_frames bytes) hps
  rw [← hb] at hrun
  have hcast : ((n : Nat) : Int) = ((0 + n : Nat) : Int) := by rw [Nat.zero_add]
  refine ⟨run_ne_out_of_fuel _ _ _ _, ?_, ?_⟩
  · intro hdef
    rw [hrun, hcast]
    exact frames_loop_defined host message_specs tail _ 0 0 n [] hdef
  · intro s hs
    rw [hrun, hcast] at hs
    obtain ⟨h1, h2, h3⟩ := frames_loop_limit host message_specs tail _ 0 0 n [] s hs
    simp only [Nat.zero_add, List.map_nil, List.nil_append] at h1 h2 h3
    refine ⟨h1, ?_, h2, ?_, ?_⟩
    · have := congrArg List.length h2
      simp only [List.length_map, List.enumFrom_length, List.length_take] at this
      exact this
    · intro hle
      rw [h3, if_neg (by omega)]
      rfl
    · intro hlt
      rw [h3, if_pos hlt]
      have hlen : bytes.length = frames_size (complete_frames bytes) + tail.length := by
        conv_lhs => rw [hb]
        rw [List.length_append, encode_stream_length]
      have hall : ∀ (k : Nat) (ps : List (List Byte)),
          (ps.filter (recognized message_specs)).length < k →
            frames_read message_specs k ps = ps := by
        intro k ps
        induction ps generalizing k with
        | nil => intro _; cases k <;> rfl
        | cons p ps ih =>
          intro hk
          cases k with
          | zero => omega
          | succ k =>
            cases hr : recognized message_specs p with
            | true =>
              simp only [List.filter_cons, hr, if_true, List.length_cons] at hk
              simp only [frames_read, hr, if_true]
              rw [ih k (by omega)]
            | false =>
              simp only [List.filter_cons, hr, Bool.false_eq_true, if_false] at hk
              simp only [frames_read, hr, Bool.false_eq_true, if_false]
              rw [ih (k + 1) hk]
      rw [hall n _ hlt, hlen]

theorem dispatcher_limit_witness :
    (⟨⟨3, [0, 1, 0x41, 0, 1, 0x5A, 0]⟩, 1, [⟨1, 'Z', []⟩]⟩ : LoopState).messages_processed =
      min 1 ((complete_frames [0, 1, 0x5A, 0, 1, 0x41, 0, 1, 0x5A, 0]).filter
        (recognized [⟨0x5A, 1, []⟩])).length :=
  ((dispatcher_limit .little [⟨0x5A, 1, []⟩] [0, 1, 0x5A, 0, 1, 0x41, 0, 1, 0x5A, 0] 1).2.2
    ⟨⟨3, [0, 1, 0x41, 0, 1, 0x5A, 0]⟩, 1, [⟨1, 'Z', []⟩]⟩ (by decide)).1

theorem frames_loop_tail (host : ByteOrder) (specs : List MessageSpec) (n : Int)
    (tail : List Byte) (ps : List (List Byte)) (pos c : Nat) (out : List DecodedMessage) :
    (frames_loop host specs n tail ps pos c out).result =
      (frames_loop host specs n [] ps pos c out).result := by
  induction ps generalizing pos c out with
  | nil =>
    simp only [frames_loop]
    split <;> rfl
  | cons p ps ih =>
    simp only [frames_loop]
    split
    · cases dispatch host specs p c out with
      | none => rfl
      | some r => exact ih _ _ _
    · rfl

/-- C10: for every stream that ends inside a record (fewer than two header
bytes, or fewer payload bytes than the header announces), the loop stops at that
record as at a clean end of stream: counter and printed messages are those of
the stream with the partial record removed, so nothing of the partial record is
decoded, and the run is finished whenever the run without the partial record
is.  For the file `00 0C 53 00 00 00 00` nothing is printed. -/
theorem truncated_tail_clean (host : ByteOrder) (message_specs : List MessageSpec)
    (payloads : List (List Byte)) (tail : List Byte) (num_messages : Int)
    (hps : ∀ p ∈ payloads, p.length < 65536) (ht : Truncated tail) :
    (run host message_specs (encode_stream payloads ++ tail) num_messages).result =
      (run host message_specs (encode_stream payloads) num_messages).result ∧
    run host message_specs (encode_stream payloads ++ tail) num_messages ≠
      Outcome.out_of_fuel ∧
    (∀ s', run host message_specs (encode_stream payloads) num_messages =
        Outcome.finished s' →
      ∃ s, run host message_specs (encode_stream payloads ++ tail) num_messages =
          Outcome.finished s ∧
        s.printed = s'.printed ∧ s.messages_processed = s'.messages_processed) ∧
    (run host message_specs [0x00, 0x0C, 0x53, 0x00, 0x00, 0x00, 0x00] num_messages).result =
      some (0, []) := by
  have h1 := run_frames host message_specs num_messages tail ht payloads hps
  have h2 := run_frames host message_specs num_messages [] trivial payloads hps
  rw [List.append_nil] at h2
  have hres : (run host message_specs (encode_stream payloads ++ tail) num_messages).result =
      (run host message_specs (encode_stream payloads) num_messages).result := by
    rw [h1, h2]
    exact frames_loop_tail _ _ _ _ _ _ _ _
  refine ⟨hres, run_ne_out_of_fuel _ _ _ _, ?_, ?_⟩
  · intro s' hs'
    rw [hs'] at hres
    cases hr : run host message_specs (encode_stream payloads ++ tail) num_messages with
    | finished s =>
      rw [hr] at hres
      simp only [Outcome.result, Option.some.injEq, Prod.mk.injEq] at hres
      exact ⟨s, rfl, hres.2, hres.1⟩
    | undefined => rw [hr] at hres; cases hres
    | out_of_fuel => rw [hr] at hres; cases hres
  · have h3 := run_frames host message_specs num_messages
      [0x00, 0x0C, 0x53, 0x00, 0x00, 0x00, 0x00] (by decide) [] (by simp)
    simp only [encode_stream, List.nil_append] at h3
    rw [h3]
    simp only [frames_loop]
    split <;> rfl

theorem truncated_tail_clean_witness :
    (run .little [⟨0x53, 12, [⟨"type".toList, 0, 1, TYPE_CHAR⟩]⟩]
        (encode_stream [[0x53, 0x4F]] ++ [0x00, 0x0C, 0x53, 0x00, 0x00, 0x00, 0x00]) 5).result =
      (run .little [⟨0x53, 12, [⟨"type".toList, 0, 1, TYPE_CHAR⟩]⟩]
        (encode_stream [[0x53, 0x4F]]) 5).result :=
  (truncated_tail_clean .little [⟨0x53, 12, [⟨"type".toList, 0, 1, TYPE_CHAR⟩]⟩]
    [[0x53, 0x4F]] [0x00, 0x0C, 0x53, 0x00, 0x00, 0x00, 0x00] 5 (by simp) (by decide)).1

theorem frames_loop_shift (host : ByteOrder) (specs : List MessageSpec) (n : Int)
    (tail : List Byte) (d : Nat) (ps : List (List Byte)) (pos c : Nat)
    (out : List DecodedMessage) :
    (frames_loop host specs n tail ps (pos + d) c out).result =
        (frames_loop host specs n tail ps pos c out).result ∧
      ∀ s s', frames_loop host specs n tail ps (pos + d) c out = Outcome.finished s →
        frames_loop host specs n tail ps pos c out = Outcome.finished s' →
        s.file.position = s'.file.position + d := by
  induction ps generalizing pos c out with
  | nil =>
    simp only [frames_loop]
    split
    · refine ⟨rfl, ?_⟩
      intro s s' hs hs'
      cases hs
      cases hs'
      simp only
      omega
    · refine ⟨rfl, ?_⟩
      intro s s' hs hs'
      cases hs
      cases hs'
      rfl
  | cons p ps ih =>
    simp only [frames_loop]
    split
    · cases dispatch host specs p c out with
      | none =>
        refine ⟨rfl, ?_⟩
        intro s s' hs
        cases hs
      | some r =>
        simp only
        have e : pos + d + 2 + p.length = pos + 2 + p.length + d := by omega
        rw [e]
        exact ih _ _ _
    · refine ⟨rfl, ?_⟩
      intro s s' hs hs'
      cases hs
      cases hs'
      rfl

theorem frames_loop_insert (host : ByteOrder) (specs : List MessageSpec) (n : Nat)
    (u : List Byte) (hne : u ≠ []) (hunk : recognized specs u = false)
    (A B : List (List Byte)) (pos c : Nat) (out : List DecodedMessage) :
    (frames_loop host specs (n : Int) [] (A ++ u :: B) pos c out).result =
        (frames_loop host specs (n : Int) [] (A ++ B) pos c out).result ∧
      ∀ s s', frames_loop host specs (n : Int) [] (A ++ u :: B) pos c out = Outcome.finished s →
        frames_loop host specs (n : Int) [] (A ++ B) pos c out = Outcome.finished s' →
        c + (A.filter (recognized specs)).length < n →
        s.file.position = s'.file.position + (2 + u.length) := by
  induction A generalizing pos c out with
  | nil =>
    simp only [List.nil_append, List.filter_nil, List.length_nil, Nat.add_zero]
    by_cases hc : (c : Int) < (n : Int)
    · have e : frames_loop host specs (n : Int) [] (u :: B) pos c out =
          frames_loop host specs (n : Int) [] B (pos + (2 + u.length)) c out := by
        simp only [frames_loop, hc, if_true, dispatch_unknown host specs u c out hne hunk,
          Nat.add_assoc]
      rw [e]
      obtain ⟨h1, h2⟩ := frames_loop_shift host specs (n : Int) [] (2 + u.length) B pos c out
      exact ⟨h1, fun s s' hs hs' _ => h2 s s' hs hs'⟩
    · rw [frames_loop_stop _ _ _ _ _ _ _ _ hc, frames_loop_stop _ _ _ _ _ _ _ _ hc]
      refine ⟨rfl, ?_⟩
      intro s s' _ _ hlt
      omega
  | cons a A ih =>
    simp only [List.cons_append]
    by_cases hc : (c : Int) < (n : Int)
    · simp only [frames_loop, hc, if_true]
      cases hr : recognized specs a with
      | true =>
        rw [dispatch_recognized _ _ _ _ _ hr]
        cases decode_message host specs (c + 1) a with
        | none =>
          refine ⟨rfl, ?_⟩
          intro s s' hs
          cases hs
        | some m =>
          simp only [Option.map_some']
          obtain ⟨h1, h2⟩ := ih (pos + 2 + a.length) (c + 1) (out ++ [m])
          refine ⟨h1, ?_⟩
          intro s s' hs hs' hlt
          apply h2 s s' hs hs'
          simp only [List.filter_cons, hr, if_true, List.length_cons] at hlt
          omega
      | false =>
        cases hd : dispatch host specs a c out with
        | none =>
          refine ⟨rfl, ?_⟩
          intro s s' hs
          cases hs
        | some r =>
          have hane : a ≠ [] := by
            intro hnil
            subst hnil
            rw [dispatch_nil] at hd
            cases hd
          rw [dispatch_unknown _ _ _ _ _ hane hr] at hd
          cases hd
          simp only
          obtain ⟨h1, h2⟩ := ih (pos + 2 + a.length) c out
          refine ⟨h1, ?_⟩
          intro s s' hs hs' hlt
          apply h2 s s' hs hs'
          simp only [List.filter_cons, hr, Bool.false_eq_true, if_false] at hlt
          exact hlt
    · rw [frames_loop_stop _ _ _ _ _ _ _ _ hc, frames_loop_stop _ _ _ _ _ _ _ _ hc]
      refine ⟨rfl, ?_⟩
      intro s s' _ _ hlt
      omega

/-- C8: for every catalog and every stream of complete records, inserting a
record whose type-id is not in the catalog leaves the counter and the sequence
of printed messages unchanged; if the limit is not reached before the inserted
record, its `2 + L` bytes are consumed on top of the others.  Two recognized
records around one unknown record and a limit of at least 2 give a counter of
2, two messages, and a file read to its end. -/
theorem unknown_type_invariance (host : ByteOrder) (message_specs : List MessageSpec)
    (before after : List (List Byte)) (unknown : List Byte) (n : Nat)
    (hbefore : ∀ p ∈ before, p.length < 65536) (hafter : ∀ p ∈ after, p.length < 65536)
    (hlen : unknown.length < 65536) (hne : unknown ≠ [])
    (hunk : recognized message_specs unknown = false) :
    (run host message_specs (encode_stream (before ++ unknown :: after)) (n : Int)).result =
      (run host message_specs (encode_stream (before ++ after)) (n : Int)).result ∧
    (∀ s s',
      run host message_specs (encode_stream (before ++ unknown :: after)) (n : Int) =
        Outcome.finished s →
      run host message_specs (encode_stream (before ++ after)) (n : Int) =
        Outcome.finished s' →
      (before.filter (recognized message_specs)).length < n →
      s.file.position = s'.file.position + (2 + unknown.length)) ∧
    (∀ first second s, before = [first] → after = [second] →
      recognized message_specs first = true → recognized message_specs second = true →
      2 ≤ n →
      run host message_specs (encode_stream [first, unknown, second]) (n : Int) =
        Outcome.finished s →
      s.messages_processed = 2 ∧ s.printed.length = 2 ∧
        s.file.position = (encode_stream [first, unknown, second]).length ∧
        s.file.unread = []) := by
  have hall : ∀ p ∈ before ++ unknown :: after, p.length < 65536 := by
    intro p hp
    rcases List.mem_append.mp hp with h | h
    · exact hbefore p h
    · rcases List.mem_cons.mp h with rfl | h
      · exact hlen
      · exact hafter p h
  have hall' : ∀ p ∈ before ++ after, p.length < 65536 := by
    intro p hp
    rcases List.mem_append.mp hp with h | h
    · exact hbefore p h
    · exact hafter p h
  have h1 := run_frames host message_specs (n : Int) [] trivial _ hall
  have h2 := run_frames host message_specs (n : Int) [] trivial _ hall'
  rw [List.append_nil] at h1 h2
  obtain ⟨hres, hpos⟩ := frames_loop_insert host message_specs n unknown hne hunk
    before after 0 0 []
  refine ⟨by rw [h1, h2]; exact hres, ?_, ?_⟩
  · intro s s' hs hs' hlt
    rw [h1] at hs
    rw [h2] at hs'
    exact hpos s s' hs hs' (by omega)
  · intro first second s hb ha hr1 hr2 hn hs
    subst hb ha
    simp only [List.cons_append, List.nil_append] at h1
    rw [h1] at hs
    have hc0 : ((0 : Nat) : Int) < (n : Int) := by omega
    have hc1 : ((0 + 1 : Nat) : Int) < (n : Int) := by omega
    simp only [frames_loop, hc0, if_true, dispatch_recognized _ _ _ _ _ hr1] at hs
    cases hm1 : decode_message host message_specs (0 + 1) first with
    | none => rw [hm1] at hs; cases hs
    | some m1 =>
      rw [hm1] at hs
      simp only [Option.map_some', hc1, if_true,
        dispatch_unknown host message_specs unknown _ _ hne hunk,
        dispatch_recognized _ _ _ _ _ hr2] at hs
      cases hm2 : decode_message host message_specs (0 + 1 + 1) second with
      | none => rw [hm2] at hs; cases hs
      | some m2 =>
        rw [hm2] at hs
        simp only [Option.map_some'] at hs
        split at hs
        · cases hs
          refine ⟨rfl, rfl, ?_, rfl⟩
          simp only [encode_stream, List.length_append, encode_frame_length, List.length_nil]
          omega
        · cases hs
          refine ⟨rfl, rfl, ?_, rfl⟩
          simp only [encode_stream, List.length_append, encode_frame_length, List.length_nil]
          omega

theorem unknown_type_invariance_witness :
    (run .little [⟨0x53, 2, [⟨"code".toList, 1, 1, TYPE_CHAR⟩]⟩]
        (encode_stream ([[0x53, 0x4F]] ++ [0x5A, 1, 2, 3, 4] :: [[0x53, 0x43]])) 2).result =
      (run .little [⟨0x53, 2, [⟨"code".toList, 1, 1, TYPE_CHAR⟩]⟩]
        (encode_stream ([[0x53, 0x4F]] ++ [[0x53, 0x43]])) 2).result :=
  (unknown_type_invariance .little [⟨0x53, 2, [⟨"code".toList, 1, 1, TYPE_CHAR⟩]⟩]
    [[0x53, 0x4F]] [[0x53, 0x43]] [0x5A, 1, 2, 3, 4] 2
    (by simp) (by simp) (by decide) (by decide) (by decide)).1

/-! ## Schema loader -/

theorem parse_fields_cons (fields : List Field) (node : XmlNode) (next : List XmlNode) :
    parse_fields fields (node :: next) =
      match field_of_node node with
      | some field =>
        if MAX_FIELDS ≤ fields.length then none else parse_fields (fields ++ [field]) next
      | none => parse_fields fields next := by
  unfold field_of_node is_element
  rw [parse_fields]
  by_cases h : node.type = XML_ELEMENT_NODE ∧ strcmp node.name "Field".toList = 0
  · have h' : (decide (node.type = XML_ELEMENT_NODE) &&
        decide (strcmp node.name "Field".toList = 0)) = true := by
      rw [Bool.and_eq_true, decide_eq_true_eq, decide_eq_true_eq]
      exact h
    rw [if_pos h, if_pos h']
    cases xmlGetProp node "name".toList <;> cases xmlGetProp node "offset".toList <;>
      cases xmlGetProp node "len".toList <;> cases xmlGetProp node "type".toList <;>
      simp [strncpy, MAX_FIELD_NAME]
  · have h' : ¬ (decide (node.type = XML_ELEMENT_NODE) &&
        decide (strcmp node.name "Field".toList = 0)) = true := by
      rw [Bool.and_eq_true, decide_eq_true_eq, decide_eq_true_eq]
      exact h
    rw [if_neg h, if_neg h']

theorem parse_fields_eq (fields : List Field) (nodes : List XmlNode)
    (hlen : fields.length ≤ MAX_FIELDS) :
    parse_fields fields nodes =
      if fields.length + (nodes.filterMap field_of_node).length ≤ MAX_FIELDS then
        some (fields ++ nodes.filterMap field_of_node)
      else none := by
  induction nodes generalizing fields with
  | nil => simp [parse_fields, hlen]
  | cons node next ih =>
    rw [parse_fields_cons]
    cases hf : field_of_node node with
    | none =>
      simp only [List.filterMap_cons, hf]
      exact ih fields hlen
    | some field =>
      simp only [List.filterMap_cons, hf, List.length_cons]
      by_cases hfull : MAX_FIELDS ≤ fields.length
      · rw [if_pos hfull, if_neg (by omega)]
      · have hlen' : (fields ++ [field]).length ≤ MAX_FIELDS := by
          simp only [List.length_append, List.length_cons, List.length_nil]
          omega
        rw [if_neg hfull, ih (fields ++ [field]) hlen']
        simp only [List.length_append, List.length_cons, List.length_nil, List.append_assoc,
          List.singleton_append]
        have e : fields.length + (0 + 1) + (next.filterMap field_of_node).length =
            fields.length + ((next.filterMap field_of_node).length + 1) := by omega
        rw [e]

theorem parse_structs_cons (message_specs : List MessageSpec) (node : XmlNode)
    (next : List XmlNode) :
    parse_structs message_specs (node :: next) =
      match spec_of_node node with
      | some spec =>
        if MAX_MESSAGE_TYPES ≤ message_specs.length then none
        else if spec.fields.length ≤ MAX_FIELDS then
          parse_structs (message_specs ++ [spec]) next
        else none
      | none => parse_structs message_specs next := by
  unfold spec_of_node is_element
  rw [parse_structs]
  by_cases h : node.type = XML_ELEMENT_NODE ∧ strcmp node.name "Struct".toList = 0
  · have h' : (decide (node.type = XML_ELEMENT_NODE) &&
        decide (strcmp node.name "Struct".toList = 0)) = true := by
      rw [Bool.and_eq_true, decide_eq_true_eq, decide_eq_true_eq]
      exact h
    rw [if_pos h, if_pos h']
    cases xmlGetProp node "id".toList <;> cases xmlGetProp node "len".toList <;>
      simp only []
    rw [parse_fields_eq [] node.children (Nat.zero_le _)]
    simp only [List.length_nil, Nat.zero_add, List.nil_append]
    by_cases hfull : MAX_MESSAGE_TYPES ≤ message_specs.length
    · simp [hfull]
    · by_cases hfields : (node.children.filterMap field_of_node).length ≤ MAX_FIELDS
      · simp [hfull, hfields]
      · simp [hfull, hfields]
  · have h' : ¬ (decide (node.type = XML_ELEMENT_NODE) &&
        decide (strcmp node.name "Struct".toList = 0)) = true := by
      rw [Bool.and_eq_true, decide_eq_true_eq, decide_eq_true_eq]
      exact h
    rw [if_neg h, if_neg h']

/-- The loop over the `Struct` elements, in closed form: the specs of the
complete `Struct` elements are appended in document order, and the result is
defined exactly when no array is overrun. -/
theorem parse_structs_eq (message_specs : List MessageSpec) (nodes : List XmlNode)
    (hlen : message_specs.length ≤ MAX_MESSAGE_TYPES) :
    parse_structs message_specs nodes =
      if message_specs.length + (nodes.filterMap spec_of_node).length ≤ MAX_MESSAGE_TYPES ∧
          ∀ spec ∈ nodes.filterMap spec_of_node, spec.fields.length ≤ MAX_FIELDS then
        some (message_specs ++ nodes.filterMap spec_of_node)
      else none := by
  induction nodes generalizing message_specs with
  | nil => simp [parse_structs, hlen]
  | cons node next ih =>
    rw [parse_structs_cons]
    cases hs : spec_of_node node with
    | none =>
      simp only [List.filterMap_cons, hs]
      exact ih message_specs hlen
    | some spec =>
      simp only [List.filterMap_cons, hs, List.length_cons, List.mem_cons, forall_eq_or_imp]
      by_cases hfull : MAX_MESSAGE_TYPES ≤ message_specs.length
      · rw [if_pos hfull, if_neg (by omega)]
      · rw [if_neg hfull]
        by_cases hfields : spec.fields.length ≤ MAX_FIELDS
        · have hlen' : (message_specs ++ [spec]).length ≤ MAX_MESSAGE_TYPES := by
            simp only [List.length_append, List.length_cons, List.length_nil]
            omega
          rw [if_pos hfields, ih (message_specs ++ [spec]) hlen']
          simp only [List.length_append, List.length_cons, List.length_nil, List.append_assoc,
            List.singleton_append, hfields, true_and]
          have e : message_specs.length + (0 + 1) + (next.filterMap spec_of_node).length =
              message_specs.length + ((next.filterMap spec_of_node).length + 1) := by omega
          rw [e]
        · rw [if_neg hfields, if_neg (by simp [hfields])]

/-! ## Type names outside of the table -/

theorem char_toNat_inj (a b : Char) (h : a.toNat = b.toNat) : a = b := by
  rw [← Char.ofNat_toNat a, ← Char.ofNat_toNat b, h]

theorem strncmp_zero (lit s : List Char) (hlit : ∀ c ∈ lit, c.toNat ≠ 0)
    (h : strncmp s lit lit.length = 0) : lit <+: s := by
  induction lit generalizing s with
  | nil => exact List.nil_prefix
  | cons c lit ih =>
    have hc : c.toNat ≠ 0 := hlit c (List.mem_cons_self _ _)
    cases s with
    | nil =>
      simp only [List.length_cons, strncmp] at h
      omega
    | cons a s =>
      simp only [List.length_cons, strncmp] at h
      by_cases hac : a = c
      · subst hac
        rw [if_pos rfl] at h
        have := ih s (fun x hx => hlit x (List.mem_cons_of_mem _ hx)) h
        exact (List.cons_prefix_cons).mpr ⟨rfl, this⟩
      · rw [if_neg hac] at h
        exact absurd (char_toNat_inj a c (by omega)) hac

theorem strncmp_ne_zero (lit s : List Char) (n : Nat) (hn : n = lit.length)
    (hlit : ∀ c ∈ lit, c.toNat ≠ 0) (h : ¬ lit <+: s) : ¬ strncmp s lit n = 0 := by
  subst hn
  exact fun h0 => h (strncmp_zero lit s hlit h0)

/-- C19: `get_field_type` is total and never fails: a type string that starts
with none of the nine listed prefixes (the empty string, `u8`, `price_2_t`, ...)
maps to CHAR. -/
theorem get_field_type_default (type_str : List Char)
    (h1 : ¬ "char_t".toList <+: type_str) (h2 : ¬ "u8_t".toList <+: type_str)
    (h3 : ¬ "u16_t".toList <+: type_str) (h4 : ¬ "u32_t".toList <+: type_str)
    (h5 : ¬ "u48_t".toList <+: type_str) (h6 : ¬ "u64_t".toList <+: type_str)
    (h7 : ¬ "price_4_t".toList <+: type_str) (h8 : ¬ "price_8_t".toList <+: type_str)
    (h9 : ¬ "char_".toList <+: type_str) :
    get_field_type type_str = TYPE_CHAR ∧
    get_field_type "".toList = TYPE_CHAR ∧
    get_field_type "u8".toList = TYPE_CHAR ∧
    get_field_type "price_2_t".toList = TYPE_CHAR := by
  refine ⟨?_, by decide, by decide, by decide⟩
  unfold get_field_type
  rw [if_neg (strncmp_ne_zero "char_t".toList type_str 6 rfl (by decide) h1),
    if_neg (strncmp_ne_zero "u8_t".toList type_str 4 rfl (by decide) h2),
    if_neg (strncmp_ne_zero "u16_t".toList type_str 5 rfl (by decide) h3),
    if_neg (strncmp_ne_zero "u32_t".toList type_str 5 rfl (by decide) h4),
    if_neg (strncmp_ne_zero "u48_t".toList type_str 5 rfl (by decide) h5),
    if_neg (strncmp_ne_zero "u64_t".toList type_str 5 rfl (by decide) h6),
    if_neg (strncmp_ne_zero "price_4_t".toList type_str 9 rfl (by decide) h7),
    if_neg (strncmp_ne_zero "price_8_t".toList type_str 9 rfl (by decide) h8),
    if_neg (strncmp_ne_zero "char_".toList type_str 5 rfl (by decide) h9)]

theorem get_field_type_default_witness :
    get_field_type "int32_t".toList = TYPE_CHAR ∧
    get_field_type "".toList = TYPE_CHAR ∧
    get_field_type "u8".toList = TYPE_CHAR ∧
    get_field_type "price_2_t".toList = TYPE_CHAR :=
  get_field_type_default "int32_t".toList (by decide) (by decide) (by decide) (by decide)
    (by decide) (by decide) (by decide) (by decide) (by decide)

/-! ## `atoi` on decimal text -/

theorem digitChar_digit (k : Nat) (hk : k < 10) :
    isdigit (Nat.digitChar k) = true ∧ (Nat.digitChar k).toNat - 48 = k := by
  interval_cases k <;> exact ⟨by decide, by decide⟩

theorem toDigitsCore_decimal (fuel n : Nat) (ds : List Char) (h : n < fuel) :
    ∃ digits : List Char, Nat.toDigitsCore 10 fuel n ds = digits ++ ds ∧ digits ≠ [] ∧
      (∀ c ∈ digits, isdigit c = true) ∧
      ∀ acc : Nat, digits.foldl (fun acc c => acc * 10 + (c.toNat - 48)) acc =
        acc * 10 ^ digits.length + n := by
  induction fuel generalizing n ds with
  | zero => omega
  | succ fuel ih =>
    have hd := digitChar_digit (n % 10) (Nat.mod_lt _ (by decide))
    simp only [Nat.toDigitsCore]
    by_cases h0 : n / 10 = 0
    · rw [if_pos h0]
      refine ⟨[Nat.digitChar (n % 10)], rfl, by simp, ?_, ?_⟩
      · intro c hc
        rw [List.mem_singleton.mp hc]
        exact hd.1
      · intro acc
        simp only [List.foldl_cons, List.foldl_nil, hd.2, List.length_singleton, Nat.pow_one]
        omega
    · rw [if_neg h0]
      obtain ⟨digits, he, _, hall, hval⟩ := ih (n / 10) (Nat.digitChar (n % 10) :: ds) (by omega)
      refine ⟨digits ++ [Nat.digitChar (n % 10)], ?_, by simp, ?_, ?_⟩
      · rw [he, List.append_assoc, List.singleton_append]
      · intro c hc
        rcases List.mem_append.mp hc with hc | hc
        · exact hall c hc
        · rw [List.mem_singleton.mp hc]
          exact hd.1
      · intro acc
        simp only [List.foldl_append, List.foldl_cons, List.foldl_nil, hval, hd.2,
          List.length_append, List.length_singleton, Nat.pow_succ]
        have e : acc * (10 ^ digits.length * 10) = acc * 10 ^ digits.length * 10 := by
          rw [Nat.mul_assoc]
        rw [e]
        omega

theorem toDigits_decimal (v : Nat) :
    Nat.toDigits 10 v ≠ [] ∧ (∀ c ∈ Nat.toDigits 10 v, isdigit c = true) ∧
      decimal_value (Nat.toDigits 10 v) = v := by
  obtain ⟨digits, he, hne, hall, hval⟩ := toDigitsCore_decimal (v + 1) v [] (by omega)
  rw [List.append_nil] at he
  unfold Nat.toDigits decimal_value
  rw [he]
  refine ⟨hne, hall, ?_⟩
  rw [hval 0]
  omega

theorem isdigit_not_space (c : Char) (h : isdigit c = true) :
    isspace c = false ∧ c ≠ '-' ∧ c ≠ '+' := by
  simp only [isdigit, Bool.and_eq_true, decide_eq_true_eq] at h
  refine ⟨?_, ?_, ?_⟩
  · simp only [isspace, Bool.or_eq_false_iff, decide_eq_false_iff_not, Bool.and_eq_false_iff]
    omega
  · intro hc
    subst hc
    have : ('-' : Char).toNat = 45 := rfl
    omega
  · intro hc
    subst hc
    have : ('+' : Char).toNat = 43 := rfl
    omega

/-- `atoi` reads back the decimal text of every `v` that fits an `int`. -/
theorem atoi_toDigits (v : Nat) (hv : v < 2 ^ 31) : atoi (Nat.toDigits 10 v) = (v : Int) := by
  obtain ⟨hne, hall, hval⟩ := toDigits_decimal v
  cases hd : Nat.toDigits 10 v with
  | nil => exact absurd hd hne
  | cons c cs =>
    rw [hd] at hall hval
    have hc := isdigit_not_space c (hall c (List.mem_cons_self _ _))
    have htake : (c :: cs).takeWhile isdigit = c :: cs := by
      rw [List.takeWhile_eq_self_iff]
      exact hall
    have hdrop : (c :: cs).dropWhile isspace = c :: cs := by
      simp [List.dropWhile, hc.1]
    simp only [atoi, strtol, hdrop, List.head?_cons, Option.some.injEq, hc.2.1, hc.2.2,
      or_self, if_false, decide_False, Bool.false_eq_true, htake, hval, LONG_MAX, LONG_MIN,
      long_to_int]
    omega

/-! ## Struct elements -/

theorem spec_of_node_eq (node : XmlNode) (id len : List Char)
    (hstruct : is_element node "Struct".toList = true)
    (hid : xmlGetProp node "id".toList = some id)
    (hlen : xmlGetProp node "len".toList = some len) :
    spec_of_node node =
      some ⟨char_byte (id.headD (Char.ofNat 0)), atoi len,
        node.children.filterMap field_of_node⟩ := by
  simp only [spec_of_node, hstruct, if_true, hid, hlen]

theorem spec_of_node_fields (node : XmlNode) (spec : MessageSpec)
    (h : spec_of_node node = some spec) :
    spec.fields = node.children.filterMap field_of_node := by
  unfold spec_of_node at h
  split at h
  · split at h
    · simp only [Option.some.injEq] at h
      rw [← h]
    · cases h
  · cases h

theorem parse_structs_single (message_specs : List MessageSpec) (node : XmlNode)
    (spec : MessageSpec) (hspec : spec_of_node node = some spec)
    (hroom : message_specs.length < MAX_MESSAGE_TYPES)
    (hfields : spec.fields.length ≤ MAX_FIELDS) :
    parse_structs message_specs [node] = some (message_specs ++ [spec]) := by
  rw [parse_structs_cons, hspec]
  simp only [if_neg (Nat.not_le.mpr hroom), if_pos hfields, parse_structs]

/-- C15: for every Struct element (with `id` and `len`, in a catalog with room,
with at most 20 complete fields), a Field child lacking any of `name`, `offset`,
`len`, `type` is skipped and every other Field child is kept: the field sequence
of the resulting MessageSpec is the subsequence of the Field children that carry
all four attributes, in document order, and the Struct stays in the catalog,
also when all its fields are skipped. -/
theorem struct_keeps_complete_fields (message_specs : List MessageSpec) (node : XmlNode)
    (id len : List Char)
    (hstruct : is_element node "Struct".toList = true)
    (hid : xmlGetProp node "id".toList = some id)
    (hlen : xmlGetProp node "len".toList = some len)
    (hroom : message_specs.length < MAX_MESSAGE_TYPES)
    (hfields : (node.children.filterMap field_of_node).length ≤ MAX_FIELDS) :
    parse_structs message_specs [node] =
      some (message_specs ++
        [⟨char_byte (id.headD (Char.ofNat 0)), atoi len,
          node.children.filterMap field_of_node⟩]) ∧
    parse_fields [] node.children = some (node.children.filterMap field_of_node) ∧
    (∀ child : XmlNode, is_element child "Field".toList = true →
      (xmlGetProp child "name".toList = none ∨ xmlGetProp child "offset".toList = none ∨
        xmlGetProp child "len".toList = none ∨ xmlGetProp child "type".toList = none) →
      field_of_node child = none) ∧
    (∀ (child : XmlNode) (name offset length type : List Char),
      is_element child "Field".toList = true →
      xmlGetProp child "name".toList = some name →
      xmlGetProp child "offset".toList = some offset →
      xmlGetProp child "len".toList = some length →
      xmlGetProp child "type".toList = some type →
      field_of_node child =
        some ⟨name.take 63, atoi offset, atoi length, get_field_type type⟩) ∧
    ((∀ child ∈ node.children, field_of_node child = none) →
      parse_structs message_specs [node] =
        some (message_specs ++ [⟨char_byte (id.headD (Char.ofNat 0)), atoi len, []⟩])) := by
  have hspec := spec_of_node_eq node id len hstruct hid hlen
  have hsingle := parse_structs_single message_specs node _ hspec hroom hfields
  refine ⟨hsingle, ?_, ?_, ?_, ?_⟩
  · rw [parse_fields_eq [] node.children (Nat.zero_le _)]
    simp only [List.length_nil, Nat.zero_add, hfields, if_true, List.nil_append]
  · intro child hchild hmissing
    simp only [field_of_node, hchild, if_true]
    rcases hmissing with h | h | h | h
    · rw [h]
    · rw [h]
      cases xmlGetProp child "name".toList <;> rfl
    · rw [h]
      cases xmlGetProp child "name".toList <;> cases xmlGetProp child "offset".toList <;> rfl
    · rw [h]
      cases xmlGetProp child "name".toList <;> cases xmlGetProp child "offset".toList <;>
        cases xmlGetProp child "len".toList <;> rfl
  · intro child name offset length type hchild h1 h2 h3 h4
    simp only [field_of_node, hchild, if_true, h1, h2, h3, h4]
  · intro hall
    have hnil : node.children.filterMap field_of_node = [] := by
      rw [List.filterMap_eq_nil_iff]
      exact hall
    rw [hsingle, hnil]

theorem struct_keeps_complete_fields_witness :
    parse_structs []
        [element "Struct" [("id", "A"), ("len", "3")]
          [element "Field" [("name", "a"), ("offset", "0"), ("len", "1"), ("type", "char_t")] [],
           element "Field" [("name", "b"), ("offset", "1"), ("type", "u16_t")] [],
           element "Field" [("name", "c"), ("offset", "1"), ("len", "2"), ("type", "u16_t")] []]] =
      some ([] ++
        [⟨char_byte ("A".toList.headD (Char.ofNat 0)), atoi "3".toList,
          (element "Struct" [("id", "A"), ("len", "3")]
            [element "Field"
              [("name", "a"), ("offset", "0"), ("len", "1"), ("type", "char_t")] [],
             element "Field" [("name", "b"), ("offset", "1"), ("type", "u16_t")] [],
             element "Field"
              [("name", "c"), ("offset", "1"), ("len", "2"), ("type", "u16_t")]
              []]).children.filterMap field_of_node⟩]) :=
  (struct_keeps_complete_fields []
    (element "Struct" [("id", "A"), ("len", "3")]
      [element "Field" [("name", "a"), ("offset", "0"), ("len", "1"), ("type", "char_t")] [],
       element "Field" [("name", "b"), ("offset", "1"), ("type", "u16_t")] [],
       element "Field" [("name", "c"), ("offset", "1"), ("len", "2"), ("type", "u16_t")] []])
    "A".toList "3".toList (by decide) (by decide) (by decide) (by decide) (by decide)).1

/-- C18: for every Struct element with attributes `id` and `len` (in a catalog
with room, with at most 20 complete fields), the resulting MessageSpec has the
first character of `id` as its type-id, whatever characters follow, so that two
`id` strings with the same first character give the same type-id; and its
length is the decimal value of `len`. -/
theorem struct_id_and_length (message_specs : List MessageSpec) (node : XmlNode)
    (first : Char) (others : List Char) (v : Nat)
    (hstruct : is_element node "Struct".toList = true)
    (hid : xmlGetProp node "id".toList = some (first :: others))
    (hlen : xmlGetProp node "len".toList = some (Nat.toDigits 10 v))
    (hv : v < 2 ^ 31)
    (hroom : message_specs.length < MAX_MESSAGE_TYPES)
    (hfields : (node.children.filterMap field_of_node).length ≤ MAX_FIELDS) :
    parse_structs message_specs [node] =
      some (message_specs ++
        [⟨char_byte first, (v : Int), node.children.filterMap field_of_node⟩]) ∧
    (first.toNat < 256 → (char_byte first).val = first.toNat) ∧
    (∀ (node' : XmlNode) (others' len' : List Char),
      is_element node' "Struct".toList = true →
      xmlGetProp node' "id".toList = some (first :: others') →
      xmlGetProp node' "len".toList = some len' →
      (node'.children.filterMap field_of_node).length ≤ MAX_FIELDS →
      ∃ spec spec', parse_structs message_specs [node] = some (message_specs ++ [spec]) ∧
        parse_structs message_specs [node'] = some (message_specs ++ [spec']) ∧
        spec.id = spec'.id ∧ spec.id = char_byte first) := by
  have hspec := spec_of_node_eq node _ _ hstruct hid hlen
  rw [List.headD_cons, atoi_toDigits v hv] at hspec
  have hsingle := parse_structs_single message_specs node _ hspec hroom hfields
  refine ⟨hsingle, ?_, ?_⟩
  · intro h
    simp only [char_byte]
    omega
  · intro node' others' len' hstruct' hid' hlen' hfields'
    have hspec' := spec_of_node_eq node' _ _ hstruct' hid' hlen'
    rw [List.headD_cons] at hspec'
    exact ⟨_, _, hsingle, parse_structs_single message_specs node' _ hspec' hroom hfields',
      rfl, rfl⟩

theorem struct_id_and_length_witness :
    parse_structs []
        [element "Struct" [("id", "Add"), ("len", "36")]
          [element "Field" [("name", "a"), ("offset", "0"), ("len", "1"), ("type", "char_t")]
            []]] =
      some ([] ++
        [⟨char_byte 'A', ((36 : Nat) : Int),
          (element "Struct" [("id", "Add"), ("len", "36")]
            [element "Field" [("name", "a"), ("offset", "0"), ("len", "1"), ("type", "char_t")]
              []]).children.filterMap field_of_node⟩]) :=
  (struct_id_and_length []
    (element "Struct" [("id", "Add"), ("len", "36")]
      [element "Field" [("name", "a"), ("offset", "0"), ("len", "1"), ("type", "char_t")] []])
    'A' "dd".toList 36 (by decide) (by decide) (by decide) (by decide) (by decide)
    (by decide)).1

/-! ## The catalog of a document -/

theorem parse_xml_spec_structs (doc : XmlDoc) (structs : XmlNode)
    (message_specs : List MessageSpec)
    (hfind : (doc.root.children.find? fun node => strcmp node.name "Structs".toList = 0) =
      some structs) :
    parse_xml_spec (some doc) message_specs =
      (parse_structs message_specs structs.children).map fun specs => ⟨specs, []⟩ := by
  simp only [parse_xml_spec, hfind]

theorem mem_specs_of_nodes (nodes : List XmlNode) (spec : MessageSpec)
    (h : spec ∈ nodes.filterMap spec_of_node) :
    ∃ node ∈ nodes, spec_of_node node = some spec ∧
      spec.fields = node.children.filterMap field_of_node := by
  obtain ⟨node, hmem, hspec⟩ := List.mem_filterMap.mp h
  exact ⟨node, hmem, hspec, spec_of_node_fields node spec hspec⟩

/-- C20: starting from an empty catalog, for every schema document with at most
32 Struct elements carrying both `id` and `len`, each with at most 20 complete
Field children, `parse_xml_spec` stays inside `message_specs` and
`spec->fields` and ends with as many entries as there are such Struct elements,
in document order, each with at most 20 fields; and only under this
precondition: whenever the run stays inside the arrays, the document satisfies
it. -/
theorem parse_xml_spec_in_bounds (doc : XmlDoc) (structs : XmlNode)
    (hfind : (doc.root.children.find? fun node => strcmp node.name "Structs".toList = 0) =
      some structs) :
    ((structs.children.filterMap spec_of_node).length ≤ MAX_MESSAGE_TYPES →
      (∀ node ∈ structs.children, (spec_of_node node).isSome = true →
        (node.children.filterMap field_of_node).length ≤ MAX_FIELDS) →
      parse_xml_spec (some doc) [] = some ⟨structs.children.filterMap spec_of_node, []⟩ ∧
      (structs.children.filterMap spec_of_node).length =
        (structs.children.filter fun node => (spec_of_node node).isSome).length ∧
      ∀ spec ∈ structs.children.filterMap spec_of_node, spec.num_fields ≤ MAX_FIELDS) ∧
    (∀ loaded, parse_xml_spec (some doc) [] = some loaded →
      (structs.children.filterMap spec_of_node).length ≤ MAX_MESSAGE_TYPES ∧
      (∀ node ∈ structs.children, (spec_of_node node).isSome = true →
        (node.children.filterMap field_of_node).length ≤ MAX_FIELDS) ∧
      loaded.message_specs = structs.children.filterMap spec_of_node) := by
  have heq := parse_structs_eq [] structs.children (Nat.zero_le _)
  simp only [List.length_nil, Nat.zero_add, List.nil_append] at heq
  have hcount : (structs.children.filterMap spec_of_node).length =
      (structs.children.filter fun node => (spec_of_node node).isSome).length := by
    generalize structs.children = nodes
    induction nodes with
    | nil => rfl
    | cons node nodes ih =>
      cases hs : spec_of_node node with
      | none => simp [List.filterMap_cons, List.filter_cons, hs, ih]
      | some spec => simp [List.filterMap_cons, List.filter_cons, hs, ih]
  refine ⟨?_, ?_⟩
  · intro hn hf
    have hspecs : ∀ spec ∈ structs.children.filterMap spec_of_node,
        spec.fields.length ≤ MAX_FIELDS := by
      intro spec hspec
      obtain ⟨node, hmem, hsome, hfields⟩ := mem_specs_of_nodes _ spec hspec
      rw [hfields]
      exact hf node hmem (by rw [hsome]; rfl)
    refine ⟨?_, hcount, hspecs⟩
    rw [parse_xml_spec_structs doc structs [] hfind, heq, if_pos ⟨hn, hspecs⟩]
    rfl
  · intro loaded hloaded
    rw [parse_xml_spec_structs doc structs [] hfind, heq] at hloaded
    split at hloaded
    · rename_i hcond
      simp only [Option.map_some', Option.some.injEq] at hloaded
      refine ⟨hcond.1, ?_, by rw [← hloaded]⟩
      intro node hmem hsome
      cases hs : spec_of_node node with
      | none => rw [hs] at hsome; cases hsome
      | some spec =>
        rw [← spec_of_node_fields node spec hs]
        exact hcond.2 spec (List.mem_filterMap.mpr ⟨node, hmem, hs⟩)
    · cases hloaded

theorem parse_xml_spec_in_bounds_witness :
    parse_xml_spec (some system_event_schema) [] =
      some ⟨(element "Structs" [] [text_node,
        element "Struct" [("id", "S"), ("len", "12")] [text_node,
          element "Field" [("name", "type"), ("offset", "0"), ("len", "1"), ("type", "char_t")]
            [],
          text_node,
          element "Field"
            [("name", "stock_locate"), ("offset", "1"), ("len", "2"), ("type", "u16_t")] [],
          text_node,
          element "Field"
            [("name", "tracking"), ("offset", "3"), ("len", "2"), ("type", "u16_t")] [],
          text_node,
          element "Field"
            [("name", "timestamp"), ("offset", "5"), ("len", "6"), ("type", "u48_t")] [],
          text_node,
          element "Field"
            [("name", "event_code"), ("offset", "11"), ("len", "1"), ("type", "char_t")] [],
          text_node],
        text_node]).children.filterMap spec_of_node, []⟩ :=
  ((parse_xml_spec_in_bounds system_event_schema _ rfl).1 (by decide) (by decide)).1


/-! ## Loading twice, duplicate type-ids -/

theorem find_message_spec_append_self (specs : List MessageSpec) (id : Byte) :
    find_message_spec (specs ++ specs) id = find_message_spec specs id := by
  unfold find_message_spec
  rw [List.find?_append]
  cases List.find? (fun spec => decide (spec.id = id)) specs <;> rfl

theorem parse_structs_again (nodes : List XmlNode) (specs : List MessageSpec)
    (h : parse_structs [] nodes = some specs)
    (hroom : specs.length + specs.length ≤ MAX_MESSAGE_TYPES) :
    parse_structs specs nodes = some (specs ++ specs) := by
  rw [parse_structs_eq [] nodes (Nat.zero_le _)] at h
  simp only [List.length_nil, Nat.zero_add, List.nil_append] at h
  split at h
  · rename_i hcond
    simp only [Option.some.injEq] at h
    rw [parse_structs_eq specs nodes (by omega), h, if_pos ⟨hroom, by rw [← h]; exact hcond.2⟩]
  · cases h

/-- C17, the claim as stated fails: loading the one-Struct schema a second time
leaves two entries where one load leaves one. -/
theorem load_twice_appends :
    (parse_xml_spec (some one_struct_schema) []).map (fun loaded =>
        loaded.message_specs.length) = some 1 ∧
    ((parse_xml_spec (some one_struct_schema) []).bind fun loaded =>
      (parse_xml_spec (some one_struct_schema) loaded.message_specs).map fun again =>
        again.message_specs.length) = some 2 ∧
    ((parse_xml_spec (some one_struct_schema) []).bind fun loaded =>
      parse_xml_spec (some one_struct_schema) loaded.message_specs) ≠
      parse_xml_spec (some one_struct_schema) [] := by
  decide

/-- C17, amended: loading the same schema document a second time appends a
second copy of every MessageSpec, so the number of entries doubles (as long as
the 32 entries of the array hold them); the entries of the first load are
unchanged, and every lookup by type-id returns the same MessageSpec as after
one load.  A load that fails leaves the catalog as it was, both times. -/
theorem load_twice (doc : Option XmlDoc) (loaded : Loaded)
    (hload : parse_xml_spec doc [] = some loaded)
    (hroom : loaded.message_specs.length + loaded.message_specs.length ≤ MAX_MESSAGE_TYPES) :
    parse_xml_spec doc loaded.message_specs =
      some ⟨loaded.message_specs ++ loaded.message_specs, loaded.stderr⟩ ∧
    (loaded.message_specs ++ loaded.message_specs).length =
      2 * loaded.message_specs.length ∧
    ∀ id, find_message_spec (loaded.message_specs ++ loaded.message_specs) id =
      find_message_spec loaded.message_specs id := by
  refine ⟨?_, by rw [List.length_append]; omega, find_message_spec_append_self _⟩
  cases doc with
  | none =>
    simp only [parse_xml_spec, Option.some.injEq] at hload
    subst hload
    rfl
  | some doc =>
    simp only [parse_xml_spec] at hload ⊢
    cases hfind : doc.root.children.find? fun structs =>
        strcmp structs.name "Structs".toList = 0 with
    | none =>
      rw [hfind] at hload
      simp only [Option.some.injEq] at hload
      subst hload
      rfl
    | some structs =>
      rw [hfind] at hload
      simp only at hload ⊢
      cases hp : parse_structs [] structs.children with
      | none => rw [hp] at hload; cases hload
      | some specs =>
        rw [hp] at hload
        simp only [Option.map_some', Option.some.injEq] at hload
        subst hload
        simp only at hroom ⊢
        rw [parse_structs_again structs.children specs hp hroom]
        rfl

theorem load_twice_witness :
    parse_xml_spec (some one_struct_schema) [⟨0x41, 3, [⟨"a".toList, 1, 2, TYPE_U16⟩]⟩] =
      some ⟨([⟨0x41, 3, [⟨"a".toList, 1, 2, TYPE_U16⟩]⟩] : List MessageSpec) ++
        [⟨0x41, 3, [⟨"a".toList, 1, 2, TYPE_U16⟩]⟩], []⟩ :=
  (load_twice (some one_struct_schema) ⟨[⟨0x41, 3, [⟨"a".toList, 1, 2, TYPE_U16⟩]⟩], []⟩
    (by decide) (by decide)).1

/-- C14, the claim as stated fails: with two Struct elements of type-id `A` the
lookup returns the spec of the first one, not of the later one, and a frame of
type `A` is printed with the field of the first. -/
theorem duplicate_type_id_later_ignored :
    (parse_xml_spec (some duplicate_schema) []).map (fun loaded => loaded.message_specs) =
      some [⟨0x41, 3, [⟨"first".toList, 1, 2, TYPE_U16⟩]⟩,
        ⟨0x41, 2, [⟨"second".toList, 1, 1, TYPE_CHAR⟩]⟩] ∧
    find_message_spec [⟨0x41, 3, [⟨"first".toList, 1, 2, TYPE_U16⟩]⟩,
        ⟨0x41, 2, [⟨"second".toList, 1, 1, TYPE_CHAR⟩]⟩] 0x41 =
      some ⟨0x41, 3, [⟨"first".toList, 1, 2, TYPE_U16⟩]⟩ ∧
    find_message_spec [⟨0x41, 3, [⟨"first".toList, 1, 2, TYPE_U16⟩]⟩,
        ⟨0x41, 2, [⟨"second".toList, 1, 1, TYPE_CHAR⟩]⟩] 0x41 ≠
      some ⟨0x41, 2, [⟨"second".toList, 1, 1, TYPE_CHAR⟩]⟩ ∧
    (run .little [⟨0x41, 3, [⟨"first".toList, 1, 2, TYPE_U16⟩]⟩,
        ⟨0x41, 2, [⟨"second".toList, 1, 1, TYPE_CHAR⟩]⟩]
      [0x00, 0x03, 0x41, 0x30, 0x31] 1).result =
      some (1, [⟨1, 'A', [("first".toList, "12337".toList)]⟩]) := by
  decide

/-- C14, amended: when the schema contains several Struct elements with the
same type-id, the earliest one shadows the later ones: the loader keeps the
specs in document order, `find_message_spec` returns the first entry with that
type-id whatever follows it, and a frame of that type is decoded with the
fields of that first entry. -/
theorem duplicate_type_id_first_wins (host : ByteOrder) (earlier later : List MessageSpec)
    (spec : MessageSpec) (body : List Byte) (c : Nat) (out : List DecodedMessage)
    (hfirst : ∀ other ∈ earlier, other.id ≠ spec.id) :
    find_message_spec (earlier ++ spec :: later) spec.id = some spec ∧
    dispatch host (earlier ++ spec :: later) (spec.id :: body) c out =
      (decode_fields host (spec.id :: body) spec.fields).map (fun lines =>
        (c + 1, out ++ [⟨c + 1, Char.ofNat spec.id.val, lines⟩])) ∧
    ∀ (nodes : List XmlNode) (specs : List MessageSpec),
      parse_structs [] nodes = some specs → specs = nodes.filterMap spec_of_node := by
  have hfind : find_message_spec (earlier ++ spec :: later) spec.id = some spec := by
    unfold find_message_spec
    rw [List.find?_append]
    have hnone : List.find? (fun s => decide (s.id = spec.id)) earlier = none := by
      rw [List.find?_eq_none]
      intro other hother
      simpa using hfirst other hother
    rw [hnone]
    simp
  refine ⟨hfind, ?_, ?_⟩
  · simp only [dispatch, hfind]
    cases decode_fields host (spec.id :: body) spec.fields <;> rfl
  · intro nodes specs h
    rw [parse_structs_eq [] nodes (Nat.zero_le _)] at h
    simp only [List.length_nil, Nat.zero_add, List.nil_append] at h
    split at h
    · simp only [Option.some.injEq] at h
      exact h.symm
    · cases h

theorem duplicate_type_id_first_wins_witness :
    find_message_spec
        ([⟨0x53, 1, []⟩] ++ (⟨0x41, 3, [⟨"first".toList, 1, 2, TYPE_U16⟩]⟩ : MessageSpec) ::
          [⟨0x41, 2, [⟨"second".toList, 1, 1, TYPE_CHAR⟩]⟩])
        (⟨0x41, 3, [⟨"first".toList, 1, 2, TYPE_U16⟩]⟩ : MessageSpec).id =
      some ⟨0x41, 3, [⟨"first".toList, 1, 2, TYPE_U16⟩]⟩ :=
  (duplicate_type_id_first_wins .little [⟨0x53, 1, []⟩]
    [⟨0x41, 2, [⟨"second".toList, 1, 1, TYPE_CHAR⟩]⟩]
    ⟨0x41, 3, [⟨"first".toList, 1, 2, TYPE_U16⟩]⟩ [0x30, 0x31] 0 [] (by decide)).1

/-! ## Field order -/

theorem decode_fields_iff (host : ByteOrder) (payload : List Byte) (fields : List Field)
    (lines : List (List Char × List Char)) :
    decode_fields host payload fields = some lines ↔
      lines.map some = fields.map (decode_field host payload) := by
  induction fields generalizing lines with
  | nil =>
    simp only [decode_fields, Option.some.injEq, List.map_nil, List.map_eq_nil_iff]
    exact eq_comm
  | cons field fields ih =>
    simp only [decode_fields, decode_field, List.map_cons]
    cases field_data payload field.offset with
    | none =>
      simp only
      constructor
      · intro h; cases h
      · intro h
        cases lines with
        | nil => cases h
        | cons l ls =>
          simp only [List.map_cons, List.cons.injEq] at h
          cases h.1
    | some data =>
      simp only
      cases parse_binary_value host data field VALUE_BUFFER_SIZE with
      | none =>
        simp only [Option.map_none']
        constructor
        · intro h; cases h
        · intro h
          cases lines with
          | nil => cases h
          | cons l ls =>
            simp only [List.map_cons, List.cons.injEq] at h
            cases h.1
      | some value =>
        simp only [Option.map_some']
        cases hd : decode_fields host payload fields with
        | none =>
          simp only
          constructor
          · intro h; cases h
          · intro h
            cases lines with
            | nil => cases h
            | cons l ls =>
              simp only [List.map_cons, List.cons.injEq] at h
              have := (ih ls).mpr h.2
              rw [hd] at this
              cases this
        | some rest =>
          simp only [Option.some.injEq]
          have hrest := (ih rest).mp hd
          constructor
          · intro h
            subst h
            simp only [List.map_cons, hrest]
          · intro h
            cases lines with
            | nil => cases h
            | cons l ls =>
              simp only [List.map_cons, List.cons.injEq, Option.some.injEq] at h
              have hls := (ih ls).mpr h.2
              rw [hd] at hls
              simp only [Option.some.injEq] at hls
              rw [h.1, hls]

/-- C12: for every recognized frame, the printed message has one decoded field
per field of the matched MessageSpec, in the stored order, the `i`-th value
being the Field Decoder applied to the payload bytes from the offset of field
`i` on; the loader stores the fields of a Struct in the order of the Field
elements of the document.  For the System Event schema and the payload
`53 00 00 00 00 00 00 00 00 00 00 4F` the result is `type = S`,
`stock_locate = 0`, `tracking = 0`, `timestamp = 0`, `event_code = O`. -/
theorem fields_in_declaration_order (host : ByteOrder) (message_specs : List MessageSpec)
    (spec : MessageSpec) (message_type : Byte) (body : List Byte) (c : Nat)
    (out : List DecodedMessage)
    (hfind : find_message_spec message_specs message_type = some spec) :
    (∀ lines, decode_fields host (message_type :: body) spec.fields = some lines ↔
      lines.map some = spec.fields.map (decode_field host (message_type :: body))) ∧
    (∀ lines, lines.map some = spec.fields.map (decode_field host (message_type :: body)) →
      dispatch host message_specs (message_type :: body) c out =
        some (c + 1, out ++ [⟨c + 1, Char.ofNat message_type.val, lines⟩]) ∧
      lines.length = spec.fields.length ∧
      lines.map (fun line => line.1) = spec.fields.map fun field => field.name) ∧
    (∀ (nodes : List XmlNode) (specs : List MessageSpec),
      parse_structs [] nodes = some specs →
      specs = nodes.filterMap spec_of_node ∧
      ∀ node ∈ nodes, ∀ declared, spec_of_node node = some declared →
        declared.fields = node.children.filterMap field_of_node) ∧
    ((parse_xml_spec (some system_event_schema) []).bind fun loaded =>
      (run host loaded.message_specs (encode_frame system_event_payload) 1).result) =
      some (1, [⟨1, 'S', [("type".toList, "S".toList), ("stock_locate".toList, "0".toList),
        ("tracking".toList, "0".toList), ("timestamp".toList, "0".toList),
        ("event_code".toList, "O".toList)]⟩]) := by
  refine ⟨fun lines => decode_fields_iff host _ _ lines, ?_, ?_, ?_⟩
  · intro lines hlines
    have hd := (decode_fields_iff host _ _ lines).mpr hlines
    refine ⟨?_, ?_, ?_⟩
    · simp only [dispatch, hfind, hd]
    · have := congrArg List.length hlines
      simpa using this
    · have hname : ∀ (fields : List Field) (ls : List (List Char × List Char)),
          ls.map some = fields.map (decode_field host (message_type :: body)) →
          ls.map (fun line => line.1) = fields.map fun field => field.name := by
        intro fields
        induction fields with
        | nil =>
          intro ls h
          simp only [List.map_nil, List.map_eq_nil_iff] at h
          subst h
          rfl
        | cons f fs ih =>
          intro ls h
          cases ls with
          | nil => cases h
          | cons l ls =>
            simp only [List.map_cons, List.cons.injEq] at h ⊢
            refine ⟨?_, ih ls h.2⟩
            have h1 := h.1
            unfold decode_field at h1
            cases hfd : field_data (message_type :: body) f.offset with
            | none =>
              rw [hfd] at h1
              cases h1
            | some data =>
              rw [hfd] at h1
              simp only at h1
              cases hpv : parse_binary_value host data f VALUE_BUFFER_SIZE with
              | none =>
                rw [hpv] at h1
                cases h1
              | some value =>
                rw [hpv] at h1
                simp only [Option.map_some', Option.some.injEq] at h1
                rw [h1]
      exact hname _ _ hlines
  · intro nodes specs h
    rw [parse_structs_eq [] nodes (Nat.zero_le _)] at h
    simp only [List.length_nil, Nat.zero_add, List.nil_append] at h
    split at h
    · simp only [Option.some.injEq] at h
      exact ⟨h.symm, fun node _ declared hdecl => spec_of_node_fields node declared hdecl⟩
    · cases h
  · cases host <;> decide

theorem fields_in_declaration_order_witness :
    dispatch .little [⟨0x53, 12, [⟨"type".toList, 0, 1, TYPE_CHAR⟩,
        ⟨"event_code".toList, 2, 1, TYPE_CHAR⟩, ⟨"value".toList, 1, 1, TYPE_U8⟩]⟩]
      (0x53 :: [0x07, 0x4F]) 0 [] =
      some (0 + 1, [] ++ [⟨0 + 1, Char.ofNat (0x53 : Byte).val,
        [("type".toList, "S".toList), ("event_code".toList, "O".toList),
          ("value".toList, "7".toList)]⟩]) :=
  ((fields_in_declaration_order .little [⟨0x53, 12, [⟨"type".toList, 0, 1, TYPE_CHAR⟩,
        ⟨"event_code".toList, 2, 1, TYPE_CHAR⟩, ⟨"value".toList, 1, 1, TYPE_U8⟩]⟩]
      ⟨0x53, 12, [⟨"type".toList, 0, 1, TYPE_CHAR⟩,
        ⟨"event_code".toList, 2, 1, TYPE_CHAR⟩, ⟨"value".toList, 1, 1, TYPE_U8⟩]⟩
      0x53 [0x07, 0x4F] 0 [] (by decide)).2.1
    [("type".toList, "S".toList), ("event_code".toList, "O".toList),
      ("value".toList, "7".toList)] (by decide)).1

/-! ## Sizing, the summary, the failed load -/

/-- C13, the code at two files: the frame `00 01 53` (L = 1, type `S`) with the
System Event schema makes the decoder read `stock_locate` at offset 1, behind
the one-byte payload; the frame `00 00` (L = 0) makes the dispatcher read
`message_data[0]` of an empty payload.  Both reads leave the buffer. -/
theorem sizing_not_guaranteed :
    (parse_xml_spec (some system_event_schema) []).map (fun loaded =>
        run .little loaded.message_specs [0x00, 0x01, 0x53] 1) = some Outcome.undefined ∧
    field_data [0x53] 1 = some [] ∧
    parse_binary_value .little [] ⟨"stock_locate".toList, 1, 2, TYPE_U16⟩ VALUE_BUFFER_SIZE =
      none ∧
    (parse_xml_spec (some system_event_schema) []).map (fun loaded =>
        run .little loaded.message_specs [0x00, 0x00] 1) = some Outcome.undefined ∧
    (∀ (host : ByteOrder) (message_specs : List MessageSpec) (c : Nat)
        (out : List DecodedMessage), dispatch host message_specs [] c out = none) := by
  refine ⟨by decide, by decide, by decide, by decide, fun _ _ _ _ => rfl⟩

/-- C11, the code at runs that decode nothing: for the file
`00 0C 53 00 00 00 00`, for an empty file and for a file whose only frame has an
unknown type, the loop ends with `messages_processed = 0` and the summary
divides `duration_ns` by it; the division has a zero divisor whatever the
measured time. -/
theorem summary_divides_by_zero (duration_ns : Nat) :
    summary duration_ns 0 = none ∧
    (parse_xml_spec (some system_event_schema) []).map (fun loaded =>
        (run .little loaded.message_specs [0x00, 0x0C, 0x53, 0x00, 0x00, 0x00, 0x00] 1).result) =
      some (some (0, [])) ∧
    main .little ["itch_parser".toList, "1".toList]
      ⟨some system_event_schema, some [0x00, 0x0C, 0x53, 0x00, 0x00, 0x00, 0x00],
        duration_ns⟩ = Exit.undefined ∧
    main .little ["itch_parser".toList, "1".toList]
      ⟨some system_event_schema, some [], duration_ns⟩ = Exit.undefined ∧
    main .little ["itch_parser".toList, "1".toList]
      ⟨some system_event_schema, some [0x00, 0x01, 0x5A], duration_ns⟩ = Exit.undefined := by
  have hload : parse_xml_spec (some system_event_schema) [] =
      some ⟨[⟨0x53, 12, [⟨"type".toList, 0, 1, TYPE_CHAR⟩,
        ⟨"stock_locate".toList, 1, 2, TYPE_U16⟩, ⟨"tracking".toList, 3, 2, TYPE_U16⟩,
        ⟨"timestamp".toList, 5, 6, TYPE_U48⟩, ⟨"event_code".toList, 11, 1, TYPE_CHAR⟩]⟩],
        []⟩ := by decide
  have hatoi : atoi "1".toList = 1 := by decide
  refine ⟨rfl, by decide, ?_, ?_, ?_⟩
  · have hrun : run .little [⟨0x53, 12, [⟨"type".toList, 0, 1, TYPE_CHAR⟩,
        ⟨"stock_locate".toList, 1, 2, TYPE_U16⟩, ⟨"tracking".toList, 3, 2, TYPE_U16⟩,
        ⟨"timestamp".toList, 5, 6, TYPE_U48⟩, ⟨"event_code".toList, 11, 1, TYPE_CHAR⟩]⟩]
        [0x00, 0x0C, 0x53, 0x00, 0x00, 0x00, 0x00] 1 =
        Outcome.finished ⟨⟨7, []⟩, 0, []⟩ := by decide
    simp only [main, List.length_cons, List.length_nil, List.getD_cons_succ,
      List.getD_cons_zero, hatoi, hload, hrun, summary]
    rfl
  · have hrun : run .little [⟨0x53, 12, [⟨"type".toList, 0, 1, TYPE_CHAR⟩,
        ⟨"stock_locate".toList, 1, 2, TYPE_U16⟩, ⟨"tracking".toList, 3, 2, TYPE_U16⟩,
        ⟨"timestamp".toList, 5, 6, TYPE_U48⟩, ⟨"event_code".toList, 11, 1, TYPE_CHAR⟩]⟩]
        [] 1 = Outcome.finished ⟨⟨0, []⟩, 0, []⟩ := by decide
    simp only [main, List.length_cons, List.length_nil, List.getD_cons_succ,
      List.getD_cons_zero, hatoi, hload, hrun, summary]
    rfl
  · have hrun : run .little [⟨0x53, 12, [⟨"type".toList, 0, 1, TYPE_CHAR⟩,
        ⟨"stock_locate".toList, 1, 2, TYPE_U16⟩, ⟨"tracking".toList, 3, 2, TYPE_U16⟩,
        ⟨"timestamp".toList, 5, 6, TYPE_U48⟩, ⟨"event_code".toList, 11, 1, TYPE_CHAR⟩]⟩]
        [0x00, 0x01, 0x5A] 1 = Outcome.finished ⟨⟨3, []⟩, 0, []⟩ := by decide
    simp only [main, List.length_cons, List.length_nil, List.getD_cons_succ,
      List.getD_cons_zero, hatoi, hload, hrun, summary]
    rfl

/-- C16, the code when the schema cannot be loaded: `parse_xml_spec` leaves the
catalog empty and writes a message to `stderr`, but it returns nothing, the
globals are those left by the load of an empty schema, and `main` goes on: it
opens the capture (a capture that cannot be opened is what makes it return 1)
and frames it to its end with the empty catalog. -/
theorem schema_failure_not_propagated (duration_ns : Nat) :
    parse_xml_spec none [] = some ⟨[], ["Failed to parse XML file\n"]⟩ ∧
    parse_xml_spec (some no_structs_document) [] =
      some ⟨[], ["No Structs section found in XML\n"]⟩ ∧
    (parse_xml_spec none []).map (fun loaded => loaded.message_specs) =
      (parse_xml_spec (some empty_schema) []).map (fun loaded => loaded.message_specs) ∧
    main .little ["itch_parser".toList, "1".toList] ⟨none, none, duration_ns⟩ =
      Exit.open_failed ["Failed to parse XML file\n", "Failed to open binary file\n"] ∧
    (parse_xml_spec none []).map (fun loaded =>
        run .little loaded.message_specs (encode_stream [system_event_payload,
          system_event_payload]) 1) =
      some (Outcome.finished ⟨⟨28, []⟩, 0, []⟩) ∧
    main .little ["itch_parser".toList, "1".toList]
      ⟨none, some (encode_stream [system_event_payload, system_event_payload]),
        duration_ns⟩ = Exit.undefined := by
  have hatoi : atoi "1".toList = 1 := by decide
  have hrun : run .little [] (encode_stream [system_event_payload, system_event_payload]) 1 =
      Outcome.finished ⟨⟨28, []⟩, 0, []⟩ := by decide
  refine ⟨rfl, by decide, by decide, ?_, by decide, ?_⟩
  · simp only [main, List.length_cons, List.length_nil, List.getD_cons_succ,
      List.getD_cons_zero, parse_xml_spec]
    rfl
  · simp only [main, List.length_cons, List.length_nil, List.getD_cons_succ,
      List.getD_cons_zero, hatoi, parse_xml_spec, hrun, summary]
    rfl

end ItchParser
